import Mathlib

/-!
# stepman: route table, step fetcher and collection-spec builder

A shallow embedding of `stepman/paths.go` and `stepman/util.go`.

Modelling conventions.

* A Go `error` value is `Option StepmanError` (`none` is `nil`); a Go
  `(value, error)` result is a pair or an `Except`.
* A Go `map[string]T` is an association list with pairwise distinct keys
  (`GoMap`), built only through `GoMap.set`.  Ranging over a Go map visits
  the entries in an unspecified order; a `MapRange` is one such order.
* The routing file is the list of members of the JSON object it holds.
  Strings are Lean strings, so they are valid Unicode.
* Collaborators that are not part of the two files (transports, the
  step-model contract, the version comparison, the operating system) are
  parameters.
-/

namespace Stepman

/-! ## Errors -/

/-- The error values built by the two files, and the ones handed through
from collaborators. -/
inductive StepmanError where
  /-- An error produced by a collaborator (I/O, JSON, YAML, the step
  model, a transport, the version comparison). -/
  | external (msg : String)
  /-- The value of `errors.New("No routes exist for uri:" + uri)`. -/
  | noRoutesExist (uri : String)
  /-- The value of `errors.New("No routing found for lib: " + err.Error())`
  for a non-nil `err`. -/
  | noRoutingFound (err : StepmanError)
  /-- The value of `errors.New("No route found for lib: " + uri)`. -/
  | noRouteFound (uri : String)
  /-- The value of `fmt.Errorf("[STEPMAN] - Failed to download: Invalid download location ...")`. -/
  | invalidDownloadLocation (kind src id version : String)
  /-- The value of `errors.New("Failed to download step")`. -/
  | failedToDownloadStep
  /-- The value of `errors.New("[STEPMAN] - Not initialized")`. -/
  | notInitialized
  deriving DecidableEq, Repr

/-! ## Go maps with string keys -/

/-- A Go `map[string]β`: an association list, keys pairwise distinct when
built through `GoMap.set` from `[]`. -/
abbrev GoMap (β : Type) := List (String × β)

namespace GoMap

variable {β : Type}

/-- The value of `m[k]` with its presence flag. -/
def get : GoMap β → String → Option β
  | [], _ => none
  | (k', v) :: rest, k => if k' = k then some v else get rest k

/-- The assignment `m[k] = v`: overwrite the entry of `k`, or add one. -/
def set : GoMap β → String → β → GoMap β
  | [], k, v => [(k, v)]
  | (k', v') :: rest, k, v =>
    if k' = k then (k, v) :: rest else (k', v') :: set rest k v

/-- The keys of the map. -/
def keys (m : GoMap β) : List String := m.map Prod.fst

end GoMap

/-- One order in which `for key, value := range m` may visit a map: a
rearrangement of the entries. -/
structure MapRange where
  /-- The order of the visit. -/
  order : GoMap String → List (String × String)
  /-- Every entry is visited once. -/
  perm : ∀ m, List.Perm (order m) m

/-- The visit in the order of the association list. -/
def MapRange.inOrder : MapRange := ⟨fun m => m, fun _ => List.Perm.refl _⟩

/-- The visit in the reverse order. -/
def MapRange.reversed : MapRange := ⟨fun m => m.reverse, fun m => List.reverse_perm m⟩

/-! ## paths.go: the route table -/

/-- The Go struct `SteplibRoute`. -/
structure SteplibRoute where
  SteplibURI : String
  FolderAlias : String
  deriving DecidableEq, Repr

/-- The Go type `SteplibRoutes`. -/
abbrev SteplibRoutes := List SteplibRoute

/-- The content found at `routingFilePath`. -/
inductive RouteFile where
  /-- No file at the path. -/
  | absent
  /-- A file that cannot be read, or that `json.Unmarshal` rejects for a
  `map[string]string`. -/
  | malformed
  /-- A JSON object with string values; its members in the order of the text. -/
  | object (members : List (String × String))
  deriving DecidableEq, Repr

/-- The method `SteplibRoutes.GetRoute`: the first route with the URI. -/
def GetRoute : SteplibRoutes → String → SteplibRoute × Bool
  | [], _ => (⟨"", ""⟩, false)
  | route :: rest, URI =>
    if route.SteplibURI = URI then (route, true) else GetRoute rest URI

/-- The decoding `json.Unmarshal(bytes, &routeMap)` of an object: members
are assigned into the map in the order of the text. -/
def jsonUnmarshal (members : List (String × String)) : GoMap String :=
  members.foldl (fun m kv => m.set kv.1 kv.2) []

/-- The encoding `json.MarshalIndent(routeMap, "", "\t")`: one member per
entry, sorted by key. -/
def jsonMarshal (m : GoMap String) : List (String × String) :=
  m.insertionSort (fun a b => a.1 ≤ b.1)

/-- The function `readRouteMap`, with the order of its `range` loop. -/
def readRouteMap (rng : MapRange) : RouteFile → Except StepmanError SteplibRoutes
  | .absent => .ok []
  | .malformed => .error (.external "json: cannot unmarshal")
  | .object members =>
    .ok ((rng.order (jsonUnmarshal members)).map fun kv => ⟨kv.1, kv.2⟩)

/-- The function `ReadRoute`. -/
def ReadRoute (rng : MapRange) (file : RouteFile) (uri : String) : SteplibRoute × Bool :=
  match readRouteMap rng file with
  | .error _ => (⟨"", ""⟩, false)
  | .ok routes => GetRoute routes uri

/-- The map built by the loop of `writeToFile`. -/
def routeMapOf (routes : SteplibRoutes) : GoMap String :=
  routes.foldl (fun m route => m.set route.SteplibURI route.FolderAlias) []

/-- The method `SteplibRoutes.writeToFile`: the file it leaves. -/
def writeToFile (routes : SteplibRoutes) : RouteFile :=
  .object (jsonMarshal (routeMapOf routes))

/-- The function `RemoveRoute`: the file it leaves, or its error. -/
def RemoveRoute (rng : MapRange) (route : SteplibRoute) (file : RouteFile) :
    Except StepmanError RouteFile :=
  match readRouteMap rng file with
  | .error err => .error err
  | .ok routes =>
    .ok (writeToFile (routes.filter fun aRoute => aRoute.SteplibURI ≠ route.SteplibURI))

/-- The function `AddRoute`: the file it leaves, or its error. -/
def AddRoute (rng : MapRange) (route : SteplibRoute) (file : RouteFile) :
    Except StepmanError RouteFile :=
  match readRouteMap rng file with
  | .error err => .error err
  | .ok routes => .ok (writeToFile (routes ++ [route]))

/-- A call of the route table's two mutators. -/
inductive RouteCall where
  | add (route : SteplibRoute)
  | remove (route : SteplibRoute)
  deriving DecidableEq, Repr

/-- The route a call is about. -/
def RouteCall.route : RouteCall → SteplibRoute
  | .add r => r
  | .remove r => r

/-- One call on the routing file. -/
def RouteCall.apply (rng : MapRange) : RouteCall → RouteFile → Except StepmanError RouteFile
  | .add r, file => AddRoute rng r file
  | .remove r, file => RemoveRoute rng r file

/-- A sequence of calls, the `k`-th of them ranging in the order `rng k`;
stops at the first call that fails. -/
def runCalls (rng : Nat → MapRange) : Nat → List RouteCall → RouteFile →
    Except StepmanError RouteFile
  | _, [], file => .ok file
  | k, call :: calls, file =>
    match call.apply (rng k) file with
    | .error err => .error err
    | .ok file' => runCalls rng (k + 1) calls file'

/-- The in-memory model with an append that does not look at the URI and a
removal of every entry with the URI. -/
def listModel : List RouteCall → SteplibRoutes → SteplibRoutes
  | [], routes => routes
  | .add r :: calls, routes => listModel calls (routes ++ [r])
  | .remove r :: calls, routes =>
    listModel calls (routes.filter fun a => a.SteplibURI ≠ r.SteplibURI)

/-- The in-memory model in which an added route takes the place of the
entries with its URI. -/
def tableModel : List RouteCall → SteplibRoutes → SteplibRoutes
  | [], routes => routes
  | .add r :: calls, routes =>
    tableModel calls ((routes.filter fun a => a.SteplibURI ≠ r.SteplibURI) ++ [r])
  | .remove r :: calls, routes =>
    tableModel calls (routes.filter fun a => a.SteplibURI ≠ r.SteplibURI)

/-- The last call of the sequence that is about the URI. -/
def lastCallAbout (uri : String) : List RouteCall → Option RouteCall
  | [] => none
  | call :: calls =>
    match lastCallAbout uri calls with
    | some c => some c
    | none => if call.route.SteplibURI = uri then some call else none


/-- The value a sequence of assignments `m[key x] = val x` leaves for `k`:
the one of the last assignment to `k`. -/
def lastValue {α β : Type} (key : α → String) (val : α → β) : List α → String → Option β
  | [], _ => none
  | x :: xs, k =>
    match lastValue key val xs k with
    | some v => some v
    | none => if key x = k then some (val x) else none

/-- The routing file seen as a table from URI to alias. -/
def routeTable : RouteFile → String → Option String
  | .object members, uri => GoMap.get (jsonUnmarshal members) uri
  | _, _ => none

/-- The table a call leaves. -/
def RouteCall.effect : RouteCall → (String → Option String) → String → Option String
  | .add r, t, uri => if r.SteplibURI = uri then some r.FolderAlias else t uri
  | .remove r, t, uri => if r.SteplibURI = uri then none else t uri

/-- The table a sequence of calls leaves. -/
def tableAfter (calls : List RouteCall) (t : String → Option String) : String → Option String :=
  calls.foldl (fun t call => call.effect t) t

/-- The route table read back after a sequence of calls: `rng` orders the
reads of the calls, `rng'` the final read. -/
def reloadAfter (rng : Nat → MapRange) (rng' : MapRange) (calls : List RouteCall)
    (file : RouteFile) : Except StepmanError SteplibRoutes :=
  match runCalls rng 0 calls file with
  | .error err => .error err
  | .ok file' => readRouteMap rng' file'

/-! ## paths.go: the path layout -/

/-- The function `GetStepSpecPath`; `CollectionsDirPath` is the package
variable set by `init`. -/
def GetStepSpecPath (CollectionsDirPath : String) (route : SteplibRoute) : String :=
  CollectionsDirPath ++ "/" ++ route.FolderAlias ++ "/spec/spec.json"

/-- The function `GetCacheBaseDir`. -/
def GetCacheBaseDir (CollectionsDirPath : String) (route : SteplibRoute) : String :=
  CollectionsDirPath ++ "/" ++ route.FolderAlias ++ "/cache"

/-- The function `GetCollectionBaseDirPath`. -/
def GetCollectionBaseDirPath (CollectionsDirPath : String) (route : SteplibRoute) : String :=
  CollectionsDirPath ++ "/" ++ route.FolderAlias ++ "/collection"

/-- The function `GetStepCacheDirPath`. -/
def GetStepCacheDirPath (CollectionsDirPath : String) (route : SteplibRoute)
    (id version : String) : String :=
  GetCacheBaseDir CollectionsDirPath route ++ "/" ++ id ++ "/" ++ version

/-- The function `GetStepCollectionDirPath`. -/
def GetStepCollectionDirPath (CollectionsDirPath : String) (route : SteplibRoute)
    (id version : String) : String :=
  GetCollectionBaseDirPath CollectionsDirPath route ++ "/steps/" ++ id ++ "/" ++ version

/-! ## The models the two files use -/

/-- Modelled from the spec: the Go struct `models.DownloadLocationModel`,
declared in the package `models`; a kind (`zip`, `git`) and a source, the
two fields `DownloadStep` reads (the field `Type` is `Type_` here). -/
structure DownloadLocationModel where
  Type_ : String
  Src : String
  deriving DecidableEq, Repr

/-- Modelled from the spec: the Go struct `models.StepGroupModel`, declared
in the package `models`; the latest version and the map from version to step
definition, over the type `Step` of a step definition (`models.StepModel`). -/
structure StepGroupModel (Step : Type) where
  LatestVersionNumber : String
  Versions : GoMap Step

/-- Modelled from the spec: the Go struct `models.StepCollectionModel`,
declared in the package `models`; the five fields `generateStepLib` sets. -/
structure StepCollectionModel (Step : Type) where
  FormatVersion : String
  GeneratedAtTimeStamp : Int
  SteplibSource : String
  DownloadLocations : List DownloadLocationModel
  Steps : GoMap (StepGroupModel Step)

/-! ## util.go: the step fetcher -/

/-- How a Go call ends: it returns its `error` result, or it stops with the
run-time panic of a method call on a nil interface value. -/
inductive GoResult where
  | returned (err : Option StepmanError)
  | nilDereference
  deriving DecidableEq, Repr

/-- One call of a transport, with its arguments. -/
inductive TransportCall where
  /-- The call `cmdex.DownloadAndUnZIP(src, dest)`. -/
  | zip (src dest : String)
  /-- The call `cmdex.GitCloneTagOrBranchAndValidateCommitHash(src, dest, version, commithash)`. -/
  | git (src dest version commithash : String)
  deriving DecidableEq, Repr

/-- The collaborators of `DownloadStep`, over a type `World` of states of
the machine (file system and network). -/
structure Collaborators (World Step : Type) where
  /-- The method `collection.GetDownloadLocations(id, version)`. -/
  GetDownloadLocations : StepCollectionModel Step → String → String →
    List DownloadLocationModel × Option StepmanError
  /-- The content at `routingFilePath`. -/
  routingFile : World → RouteFile
  /-- The order in which the map of routes is ranged over. -/
  rangeOrder : World → MapRange
  /-- The function `pathutil.IsPathExists`. -/
  IsPathExists : String → World → Bool × Option StepmanError
  /-- The function `cmdex.DownloadAndUnZIP`. -/
  DownloadAndUnZIP : String → String → World → World × Option StepmanError
  /-- The function `cmdex.GitCloneTagOrBranchAndValidateCommitHash`. -/
  GitCloneTagOrBranchAndValidateCommitHash :
    String → String → String → String → World → World × Option StepmanError

/-- What a call of `DownloadStep` did. -/
structure DownloadRun (World : Type) where
  /-- How the call ended. -/
  result : GoResult
  /-- The transports invoked, in order. -/
  calls : List TransportCall
  /-- The state the call left. -/
  world : World

/-- One more transport call in front of a run. -/
def DownloadRun.after {World : Type} (call : TransportCall) (run : DownloadRun World) :
    DownloadRun World :=
  { run with calls := call :: run.calls }

section Fetcher

variable {World Step : Type} (env : Collaborators World Step)

/-- The loop of `DownloadStep` over the download locations, and the
statements after it; `success` is the local variable. -/
def downloadLoop (stepPth id version commithash : String) (success : Bool) :
    List DownloadLocationModel → World → DownloadRun World
  | [], w =>
    if !success then ⟨.returned (some .failedToDownloadStep), [], w⟩
    else ⟨.returned none, [], w⟩
  | downloadLocation :: rest, w =>
    if downloadLocation.Type_ = "zip" then
      match env.DownloadAndUnZIP downloadLocation.Src stepPth w with
      | (w', some _) =>
        (downloadLoop stepPth id version commithash success rest w').after
          (.zip downloadLocation.Src stepPth)
      | (w', none) => ⟨.returned none, [.zip downloadLocation.Src stepPth], w'⟩
    else if downloadLocation.Type_ = "git" then
      match env.GitCloneTagOrBranchAndValidateCommitHash downloadLocation.Src stepPth
          version commithash w with
      | (w', some _) =>
        (downloadLoop stepPth id version commithash success rest w').after
          (.git downloadLocation.Src stepPth version commithash)
      | (w', none) =>
        ⟨.returned none, [.git downloadLocation.Src stepPth version commithash], w'⟩
    else
      ⟨.returned (some (.invalidDownloadLocation downloadLocation.Type_
        downloadLocation.Src id version)), [], w⟩

/-- The function `DownloadStep`. -/
def DownloadStep (CollectionsDirPath : String) (collection : StepCollectionModel Step)
    (id version commithash : String) (w : World) : DownloadRun World :=
  let (downloadLocations, err) := env.GetDownloadLocations collection id version
  if err ≠ none then ⟨.returned err, [], w⟩
  else
    let (route, found) :=
      ReadRoute (env.rangeOrder w) (env.routingFile w) collection.SteplibSource
    if !found then
      -- `errors.New("No routing found for lib: " + err.Error())`
      match err with
      | none => ⟨.nilDereference, [], w⟩
      | some e => ⟨.returned (some (.noRoutingFound e)), [], w⟩
    else
      let stepPth := GetStepCacheDirPath CollectionsDirPath route id version
      match env.IsPathExists stepPth w with
      | (_, some err) => ⟨.returned (some err), [], w⟩
      | (true, none) => ⟨.returned none, [], w⟩
      | (false, none) =>
        downloadLoop env stepPth id version commithash false downloadLocations w

/-- The transport call `DownloadStep` makes for a `zip` or `git` location. -/
def transportCallOf (stepPth version commithash : String) (loc : DownloadLocationModel) :
    TransportCall :=
  if loc.Type_ = "zip" then .zip loc.Src stepPth
  else .git loc.Src stepPth version commithash

/-- The directory a transport call fills. -/
def TransportCall.dest : TransportCall → String
  | .zip _ dest => dest
  | .git _ dest _ _ => dest

/-- The effect of a transport call. -/
def TransportCall.run : TransportCall → World → World × Option StepmanError
  | .zip src dest, w => env.DownloadAndUnZIP src dest w
  | .git src dest version commithash, w =>
    env.GitCloneTagOrBranchAndValidateCommitHash src dest version commithash w

/-- The state after a sequence of transport calls that all fail; `none`
when one of them succeeds. -/
def worldAfterFailures : List TransportCall → World → Option World
  | [], w => some w
  | call :: calls, w =>
    match call.run env w with
    | (w', some _) => worldAfterFailures calls w'
    | (_, none) => none

/-- The contract of the transports that the cache relies on: a transport
does not touch the routing file, and when it succeeds its destination
directory exists. -/
def TransportsFillCache : Prop :=
  (∀ (call : TransportCall) (w : World),
    env.routingFile (call.run env w).1 = env.routingFile w) ∧
  (∀ (call : TransportCall) (w w' : World),
    call.run env w = (w', none) → env.IsPathExists call.dest w' = (true, none))

end Fetcher

/-! ## A small machine to run the fetcher on -/

/-- A machine state: the routing file and the directories that exist. -/
structure SampleWorld where
  routes : RouteFile
  dirs : List String
  deriving DecidableEq, Repr

/-- Collaborators on `SampleWorld`: a collection offers its own download
locations for every step, and a transport succeeds exactly on the source
`good-url`, creating its destination. -/
def sampleEnv : Collaborators SampleWorld Unit where
  GetDownloadLocations := fun collection _ _ => (collection.DownloadLocations, none)
  routingFile := fun w => w.routes
  rangeOrder := fun _ => MapRange.inOrder
  IsPathExists := fun pth w => (decide (pth ∈ w.dirs), none)
  DownloadAndUnZIP := fun src dest w =>
    if src = "good-url" then ({ w with dirs := dest :: w.dirs }, none)
    else (w, some (.external "download failed"))
  GitCloneTagOrBranchAndValidateCommitHash := fun src dest _ _ w =>
    if src = "good-url" then ({ w with dirs := dest :: w.dirs }, none)
    else (w, some (.external "clone failed"))

/-- A collection of the library `lib` with the given download locations. -/
def sampleCollection {Step : Type} (locs : List DownloadLocationModel) :
    StepCollectionModel Step where
  FormatVersion := "1"
  GeneratedAtTimeStamp := 0
  SteplibSource := "lib"
  DownloadLocations := locs
  Steps := []

/-- A machine on which the library `lib` has the route `alias1` and nothing
is cached. -/
def routedWorld : SampleWorld := ⟨.object [("lib", "alias1")], []⟩

/-- A machine without a routing file. -/
def unroutedWorld : SampleWorld := ⟨.absent, []⟩

/-! ## util.go: the collection-spec builder -/

/-- The library call `strings.Replace(s, old, new, -1)` on the characters of
the strings, for a non-empty `old`; `skip` counts the characters of a
replaced occurrence still to pass over. -/
def stringsReplaceAux (old new : List Char) : Nat → List Char → List Char
  | _, [] => []
  | skip + 1, _ :: cs => stringsReplaceAux old new skip cs
  | 0, c :: cs =>
    if old.isPrefixOf (c :: cs) then new ++ stringsReplaceAux old new (old.length - 1) cs
    else c :: stringsReplaceAux old new 0 cs

/-- The library call `strings.Replace(s, old, new, -1)` for a non-empty
`old`: every occurrence of `old`, from the left and without overlap, becomes
`new`. -/
def stringsReplace (s old new : String) : String :=
  ⟨stringsReplaceAux old.data new.data 0 s.data⟩

/-- The library call `strings.Split(s, sep)` for a separator of one
character, on the characters of the string. -/
def stringsSplitAux (sep : Char) : List Char → List (List Char)
  | [] => [[]]
  | c :: cs =>
    if c = sep then [] :: stringsSplitAux sep cs
    else
      match stringsSplitAux sep cs with
      | [] => [[c]]
      | head :: tail => (c :: head) :: tail

/-- The library call `strings.Split(s, "/")`. -/
def stringsSplit (s : String) : List String :=
  (stringsSplitAux '/' s.data).map String.mk

/-- The class `[a-z]`. -/
def isLowerLetter (c : Char) : Bool := decide ('a'.toNat ≤ c.toNat ∧ c.toNat ≤ 'z'.toNat)

/-- The tail `.yml` of the pattern at the head of the text: any character
but a line feed, then `yml`. -/
def matchDotYml : List Char → Bool
  | c :: 'y' :: 'm' :: 'l' :: _ => c != '\n'
  | _ => false

/-- The pattern `([a-z]+).yml` at the head of the text. -/
def matchLettersDotYml : List Char → Bool
  | [] => false
  | c :: cs => isLowerLetter c && (matchDotYml cs || matchLettersDotYml cs)

/-- The pattern `([a-z]+).yml` somewhere in the text. -/
def matchAnywhere : List Char → Bool
  | [] => false
  | c :: cs => matchLettersDotYml (c :: cs) || matchAnywhere cs

/-- The library call `regexp.MatchString("([a-z]+).yml", s)`; the pattern
compiles, so the call has no error. -/
def regexpMatchString (s : String) : Bool := matchAnywhere s.data

/-- A visit of `filepath.Walk`: the path and the error handed to the
callback. -/
structure WalkEntry where
  path : String
  err : Option StepmanError
  deriving DecidableEq, Repr

/-- The collaborators of the collection-spec builder and of the spec
persistence, over a type `World` of states of the machine and the type
`Step` of `models.StepModel`. -/
structure BuilderEnv (World Step : Type) where
  /-- The visits `filepath.Walk(root, fn)` makes, in order, as long as `fn`
  returns nil. -/
  Walk : String → World → List WalkEntry
  /-- The function `fileutil.ReadBytesFromFile`. -/
  ReadBytesFromFile : String → World → Except StepmanError String
  /-- The decoding `yaml.Unmarshal(bytes, &stepModel)`. -/
  yamlUnmarshal : String → Except StepmanError Step
  /-- The method `stepModel.Normalize()`. -/
  Normalize : Step → Except StepmanError Step
  /-- The method `stepModel.ValidateStep(strict)`. -/
  ValidateStep : Bool → Step → Except StepmanError Step
  /-- The method `stepModel.FillMissingDefaults()`. -/
  FillMissingDefaults : Step → Except StepmanError Step
  /-- The function `versions.CompareVersions`. -/
  CompareVersions : String → String → Except StepmanError Int
  /-- The value of `time.Now().Unix()`. -/
  now : World → Int
  /-- The function `pathutil.IsPathExists`. -/
  IsPathExists : String → World → Bool × Option StepmanError
  /-- The function `os.MkdirAll(dir, 0777)`. -/
  MkdirAll : String → World → World × Option StepmanError
  /-- The function `os.Remove`. -/
  Remove : String → World → World × Option StepmanError
  /-- The encoding `json.MarshalIndent(collection, "", "\t")`. -/
  jsonMarshalIndent : StepCollectionModel Step → Except StepmanError String
  /-- The function `fileutil.WriteBytesToFile`. -/
  WriteBytesToFile : String → String → World → World × Option StepmanError

/-- Modelled from the spec: the Go type `models.StepHash`, declared in the
package `models`; the map from step id to step group. -/
abbrev StepHash (Step : Type) := GoMap (StepGroupModel Step)

/-- The zero value `models.StepCollectionModel{}`. -/
def emptyCollection (Step : Type) : StepCollectionModel Step := ⟨"", 0, "", [], []⟩

/-- The step a path is taken for by the callback of `generateStepLib`: the
pattern matches the path relative to the root, the relative path has four
components, and the second and the third are the id and the version. -/
def acceptedStep (stepsSpecDir path : String) : Option (String × String) :=
  let truncatedPath := stringsReplace path (stepsSpecDir ++ "/") ""
  if regexpMatchString truncatedPath then
    match stringsSplit truncatedPath with
    | [_, id, version, _] => some (id, version)
    | _ => none
  else none

section Builder

variable {World Step : Type} (env : BuilderEnv World Step)

/-- The function `parseStepYml`. -/
def parseStepYml (_collectionURI pth _id _version : String) (w : World) :
    Except StepmanError Step := do
  let bytes ← env.ReadBytesFromFile pth w
  let stepModel ← env.yamlUnmarshal bytes
  let stepModel ← env.Normalize stepModel
  let stepModel ← env.ValidateStep true stepModel
  let stepModel ← env.FillMissingDefaults stepModel
  return stepModel

/-- The function `addStepVersionToStepGroup`; the group returned with an
error is dropped by the caller. -/
def addStepVersionToStepGroup (CompareVersions : String → String → Except StepmanError Int)
    (step : Step) (version : String) (stepGroup : StepGroupModel Step) :
    Except StepmanError (StepGroupModel Step) :=
  if stepGroup.LatestVersionNumber ≠ "" then
    match CompareVersions stepGroup.LatestVersionNumber version with
    | .error err => .error err
    | .ok r =>
      let stepGroup : StepGroupModel Step :=
        if r = 1 then { stepGroup with LatestVersionNumber := version } else stepGroup
      .ok { stepGroup with Versions := stepGroup.Versions.set version step }
  else
    .ok { LatestVersionNumber := version, Versions := stepGroup.Versions.set version step }

/-- The callback `generateStepLib` hands to `filepath.Walk`, on one visit:
the step hash it leaves, or the error it returns. -/
def walkFn (route : SteplibRoute) (stepsSpecDir : String) (w : World) (entry : WalkEntry)
    (stepHash : StepHash Step) : Except StepmanError (StepHash Step) :=
  let truncatedPath := stringsReplace entry.path (stepsSpecDir ++ "/") ""
  if regexpMatchString truncatedPath then
    match stringsSplit truncatedPath with
    | [_, id, version, _] =>
      match parseStepYml env route.SteplibURI entry.path id version w with
      | .error parseErr => .error parseErr
      | .ok step =>
        let stepGroup : StepGroupModel Step :=
          match stepHash.get id with
          | some group => group
          | none => { LatestVersionNumber := "", Versions := [] }
        match addStepVersionToStepGroup env.CompareVersions step version stepGroup with
        | .error err => .error err
        | .ok stepGroup =>
          -- `err` is nil after the assignment, and is what the callback returns
          .ok (stepHash.set id stepGroup)
    | _ =>
      match entry.err with
      | some err => .error err
      | none => .ok stepHash
  else
    match entry.err with
    | some err => .error err
    | none => .ok stepHash

/-- The run of `filepath.Walk` with the callback: it stops at the first
visit for which the callback returns an error. -/
def walkAll (route : SteplibRoute) (stepsSpecDir : String) (w : World) :
    List WalkEntry → StepHash Step → Except StepmanError (StepHash Step)
  | [], stepHash => .ok stepHash
  | entry :: rest, stepHash =>
    match walkFn env route stepsSpecDir w entry stepHash with
    | .error err => .error err
    | .ok stepHash' => walkAll route stepsSpecDir w rest stepHash'

/-- The function `generateStepLib`. -/
def generateStepLib (CollectionsDirPath : String) (route : SteplibRoute)
    (templateCollection : StepCollectionModel Step) (w : World) :
    StepCollectionModel Step × Option StepmanError :=
  let collection : StepCollectionModel Step :=
    { FormatVersion := templateCollection.FormatVersion
      GeneratedAtTimeStamp := env.now w
      SteplibSource := route.SteplibURI
      DownloadLocations := templateCollection.DownloadLocations
      Steps := [] }
  let stepsSpecDir := GetCollectionBaseDirPath CollectionsDirPath route
  match walkAll env route stepsSpecDir w (env.Walk stepsSpecDir w) [] with
  | .error err => (emptyCollection Step, some err)
  | .ok stepHash => ({ collection with Steps := stepHash }, none)

/-- The directory part of `path.Split(pth)`: the path up to its last slash,
the slash included. -/
def pathSplitDir (pth : String) : String :=
  ⟨(pth.data.reverse.dropWhile fun c => c != '/').reverse⟩

/-- The first statement of `WriteStepSpecToFile`: the directory of the spec
file is made when the file does not exist, and the file is removed when it
does. -/
def prepareSpecPath (pth : String) (w : World) : World × Option StepmanError :=
  match env.IsPathExists pth w with
  | (_, some err) => (w, some err)
  | (false, none) => env.MkdirAll (pathSplitDir pth) w
  | (true, none) => env.Remove pth w

/-- The function `WriteStepSpecToFile`: the state it leaves and the error
it returns. -/
def WriteStepSpecToFile (CollectionsDirPath : String)
    (templateCollection : StepCollectionModel Step) (route : SteplibRoute) (w : World) :
    World × Option StepmanError :=
  let pth := GetStepSpecPath CollectionsDirPath route
  match prepareSpecPath env pth w with
  | (w₁, some err) => (w₁, some err)
  | (w₁, none) =>
    match generateStepLib env CollectionsDirPath route templateCollection w₁ with
    | (_, some err) => (w₁, some err)
    | (collection, none) =>
      match env.jsonMarshalIndent collection with
      | .error err => (w₁, some err)
      | .ok bytes => env.WriteBytesToFile pth bytes w₁

/-- What the operating system grants about the spec path: once removed the
path does not exist, and making its directory does not make the path. -/
def SpecPathLaws (pth : String) : Prop :=
  (∀ w w₁ : World, env.Remove pth w = (w₁, none) → env.IsPathExists pth w₁ = (false, none)) ∧
  (∀ w w₁ : World, env.IsPathExists pth w = (false, none) →
    env.MkdirAll (pathSplitDir pth) w = (w₁, none) → env.IsPathExists pth w₁ = (false, none))

end Builder

/-- A sequence of step versions folded into a step group by
`addStepVersionToStepGroup`, as `generateStepLib` does for the versions of
one step. -/
def foldVersions {Step : Type} (CompareVersions : String → String → Except StepmanError Int) :
    List (String × Step) → StepGroupModel Step → Except StepmanError (StepGroupModel Step)
  | [], stepGroup => .ok stepGroup
  | (version, step) :: rest, stepGroup =>
    match addStepVersionToStepGroup CompareVersions step version stepGroup with
    | .error err => .error err
    | .ok stepGroup' => foldVersions CompareVersions rest stepGroup'

/-- A step-definition file name in the words of the specification: a stem of
lower-case letters, not empty, followed by the suffix `.yml`. -/
def isStepDefinitionFileName (name : String) : Bool :=
  let stem := name.data.take (name.data.length - 4)
  decide (4 < name.data.length) && name.data.drop (name.data.length - 4) == ".yml".data &&
    stem.all isLowerLetter

/-- The invariant of a step group while versions are folded into it: the
latest version is empty only for a group without versions, and otherwise it
is a key and no key is greater. -/
def GroupInv {Step α : Type} [LinearOrder α] (rank : String → α)
    (stepGroup : StepGroupModel Step) : Prop :=
  (stepGroup.LatestVersionNumber = "" → stepGroup.Versions = []) ∧
  (stepGroup.LatestVersionNumber ≠ "" →
    stepGroup.LatestVersionNumber ∈ GoMap.keys stepGroup.Versions) ∧
  ∀ k ∈ GoMap.keys stepGroup.Versions, rank k ≤ rank stepGroup.LatestVersionNumber

/-! ## A small machine to run the builder on -/

/-- A decimal number. -/
def parseNumberAux : List Char → Nat → Option Nat
  | [], acc => some acc
  | c :: cs, acc =>
    if c.isDigit then parseNumberAux cs (acc * 10 + (c.toNat - '0'.toNat)) else none

/-- A version `X.Y.Z` of three decimal numbers. -/
def parseVersion (version : String) : Option (Nat × Nat × Nat) :=
  match (stringsSplitAux '.' version.data).map fun cs =>
      if cs = [] then none else parseNumberAux cs 0 with
  | [some x, some y, some z] => some (x, y, z)
  | _ => none

/-- The place of a version `X.Y.Z` in the semantic-version order. -/
def versionRank (version : String) : ℕ ×ₗ ℕ ×ₗ ℕ :=
  match parseVersion version with
  | some (x, y, z) => toLex (x, toLex (y, z))
  | none => toLex (0, toLex (0, 0))

/-- A comparison of versions for the sample machine, a stand-in for the
library function and not a model of it: on two versions `X.Y.Z` it returns 1
when the second is the greater one, -1 when the first is and 0 when they are
equal, and it fails when one of the two is not of the form `X.Y.Z`. -/
def sampleCompareVersions (version1 version2 : String) : Except StepmanError Int :=
  match parseVersion version1, parseVersion version2 with
  | some _, some _ =>
    if versionRank version1 < versionRank version2 then .ok 1
    else if versionRank version2 < versionRank version1 then .ok (-1)
    else .ok 0
  | _, _ => .error (.external "invalid version")

/-- A machine state for the builder: what the walk of the collection root
visits, the files with their content, and the directories. -/
structure SampleDisk where
  listing : List WalkEntry
  files : GoMap String
  dirs : List String

/-- Collaborators on `SampleDisk`, with the content of a step definition as
the step model: the content `not yaml` does not decode and the content
`invalid` fails validation. -/
def sampleBuilder : BuilderEnv SampleDisk String where
  Walk := fun _ w => w.listing
  ReadBytesFromFile := fun pth w =>
    match GoMap.get w.files pth with
    | some bytes => .ok bytes
    | none => .error (.external "no such file")
  yamlUnmarshal := fun bytes =>
    if bytes = "not yaml" then .error (.external "yaml: cannot unmarshal") else .ok bytes
  Normalize := fun step => .ok step
  ValidateStep := fun _ step =>
    if step = "invalid" then .error (.external "validation failed") else .ok step
  FillMissingDefaults := fun step => .ok step
  CompareVersions := sampleCompareVersions
  now := fun _ => 0
  IsPathExists := fun pth w => (decide (pth ∈ w.dirs ∨ pth ∈ GoMap.keys w.files), none)
  MkdirAll := fun dir w => ({ w with dirs := dir :: w.dirs }, none)
  Remove := fun pth w =>
    ({ w with files := w.files.filter (fun kv => kv.1 ≠ pth),
              dirs := w.dirs.filter (fun dir => dir ≠ pth) }, none)
  jsonMarshalIndent := fun collection => .ok collection.SteplibSource
  WriteBytesToFile := fun pth bytes w => ({ w with files := w.files.set pth bytes }, none)

/-- A collection root with the definition of step `A` at version 1.0.0 and
a backup copy of an older text next to it, in the order of the walk. -/
def backupDisk : SampleDisk where
  listing :=
    [⟨"/h/a1/collection/steps/A/1.0.0/step.yml", none⟩,
     ⟨"/h/a1/collection/steps/A/1.0.0/step.yml.bak", none⟩]
  files :=
    [("/h/a1/collection/steps/A/1.0.0/step.yml", "title: current"),
     ("/h/a1/collection/steps/A/1.0.0/step.yml.bak", "title: stale")]
  dirs := []

/-- A collection root with step `A` at the versions 1.0.0, valid, and 2.0.0,
failing validation, and a spec file from an earlier build. -/
def invalidStepDisk : SampleDisk where
  listing :=
    [⟨"/h/a1/collection", none⟩,
     ⟨"/h/a1/collection/steps/A/1.0.0/step.yml", none⟩,
     ⟨"/h/a1/collection/steps/A/2.0.0/step.yml", none⟩]
  files :=
    [("/h/a1/collection/steps/A/1.0.0/step.yml", "title: one"),
     ("/h/a1/collection/steps/A/2.0.0/step.yml", "invalid"),
     ("/h/a1/spec/spec.json", "lib")]
  dirs := ["/h/a1/spec/"]

/-- A collection root with step `A` at the version 1.0.0 and at a version
that is not a semantic version. -/
def badVersionDisk : SampleDisk where
  listing :=
    [⟨"/h/a1/collection/steps/A/1.0.0/step.yml", none⟩,
     ⟨"/h/a1/collection/steps/A/latest/step.yml", none⟩]
  files :=
    [("/h/a1/collection/steps/A/1.0.0/step.yml", "title: one"),
     ("/h/a1/collection/steps/A/latest/step.yml", "title: two")]
  dirs := []

/-- The state `WriteStepSpecToFile` runs the build on when the spec file of
an earlier build was there: that file is removed. -/
def clearedStepDisk : SampleDisk where
  listing := invalidStepDisk.listing
  files :=
    [("/h/a1/collection/steps/A/1.0.0/step.yml", "title: one"),
     ("/h/a1/collection/steps/A/2.0.0/step.yml", "invalid")]
  dirs := ["/h/a1/spec/"]

/-! ## Failures of the collaborators of the builder -/

section BuilderFailures

variable {World Step : Type} (env : BuilderEnv World Step)

/-- The definition file at a path fails the step-model contract: reading
the file fails, or decoding what was read, or normalizing what was decoded,
or validating (strict) what was normalized, or filling the defaults of what
was validated. -/
def StepDefinitionFails (pth : String) (w : World) : Prop :=
  (∃ err, env.ReadBytesFromFile pth w = .error err) ∨
  (∃ bytes err, env.ReadBytesFromFile pth w = .ok bytes ∧
    env.yamlUnmarshal bytes = .error err) ∨
  (∃ bytes s₀ err, env.ReadBytesFromFile pth w = .ok bytes ∧
    env.yamlUnmarshal bytes = .ok s₀ ∧ env.Normalize s₀ = .error err) ∨
  (∃ bytes s₀ s₁ err, env.ReadBytesFromFile pth w = .ok bytes ∧
    env.yamlUnmarshal bytes = .ok s₀ ∧ env.Normalize s₀ = .ok s₁ ∧
    env.ValidateStep true s₁ = .error err) ∨
  (∃ bytes s₀ s₁ s₂ err, env.ReadBytesFromFile pth w = .ok bytes ∧
    env.yamlUnmarshal bytes = .ok s₀ ∧ env.Normalize s₀ = .ok s₁ ∧
    env.ValidateStep true s₁ = .ok s₂ ∧ env.FillMissingDefaults s₂ = .error err)

/-- The operating system took the state `w₀` to the state `w` on the way to
the build: the spec path existed and its removal succeeded, or it did not
exist and making its directory succeeded. -/
def SpecPathPrepared (pth : String) (w₀ w : World) : Prop :=
  (env.IsPathExists pth w₀ = (true, none) ∧ env.Remove pth w₀ = (w, none)) ∨
  (env.IsPathExists pth w₀ = (false, none) ∧
    env.MkdirAll (pathSplitDir pth) w₀ = (w, none))

end BuilderFailures

/-- The group the callback of `generateStepLib` folds a version of the step
into: the one of the step hash, or a new one. -/
def groupAt {Step : Type} (stepHash : StepHash Step) (id : String) : StepGroupModel Step :=
  match stepHash.get id with
  | some group => group
  | none => { LatestVersionNumber := "", Versions := [] }

/-- A version of the step `id` that some visit of the walk is taken for. -/
def IsWalkVersion (stepsSpecDir : String) (entries : List WalkEntry) (id version : String) :
    Prop :=
  ∃ entry ∈ entries, acceptedStep stepsSpecDir entry.path = some (id, version)

/-- Invariant of the walk: the latest version of the group of the step, when
there is a group, is a version of the walk. -/
def GroupTracked {Step : Type} (stepsSpecDir : String) (entries : List WalkEntry)
    (id : String) (stepHash : StepHash Step) : Prop :=
  ∀ g, GoMap.get stepHash id = some g →
    IsWalkVersion stepsSpecDir entries id g.LatestVersionNumber

/-- Invariant of the walk between two visits of the step, one of them with
the version `vb` and the later one with the version `v₂`: the step has a
group, its latest version is a version of the walk, and it is `vb` unless
`vb` is still to come. -/
def GroupPending {Step : Type} (stepsSpecDir : String) (entries : List WalkEntry)
    (id vb v₂ : String) (stepHash : StepHash Step) : Prop :=
  ∃ g, GoMap.get stepHash id = some g ∧
    IsWalkVersion stepsSpecDir entries id g.LatestVersionNumber ∧
    (vb = v₂ ∨ g.LatestVersionNumber = vb)

/-! ## Lemmas on Go maps -/

namespace GoMap

variable {β : Type}

theorem get_set (m : GoMap β) (k : String) (v : β) (k' : String) :
    get (set m k v) k' = if k = k' then some v else get m k' := by
  induction m with
  | nil => simp [set, get]
  | cons p rest ih =>
    obtain ⟨a, b⟩ := p
    by_cases h : a = k
    · subst h
      by_cases h' : a = k' <;> simp [set, get, h']
    · by_cases h' : a = k'
      · subst h'
        have : ¬ k = a := fun e => h e.symm
        simp [set, get, h, this]
      · simp [set, get, h, h', ih]

theorem mem_keys_set (m : GoMap β) (k : String) (v : β) (k' : String) :
    k' ∈ keys (set m k v) ↔ k' = k ∨ k' ∈ keys m := by
  induction m with
  | nil => simp [set, keys]
  | cons p rest ih =>
    obtain ⟨a, b⟩ := p
    by_cases h : a = k
    · subst h
      simp [set, keys]
    · simp only [keys] at ih
      simp [set, keys, h, ih]
      tauto

theorem nodup_keys_set {m : GoMap β} (k : String) (v : β) (h : (keys m).Nodup) :
    (keys (set m k v)).Nodup := by
  induction m with
  | nil => simp [set, keys]
  | cons p rest ih =>
    obtain ⟨a, b⟩ := p
    have hcons : a ∉ keys rest ∧ (keys rest).Nodup := by
      simpa [keys] using h
    by_cases e : a = k
    · subst e
      simpa [set, keys] using h
    · have hk : keys (set ((a, b) :: rest) k v) = a :: keys (set rest k v) := by
        simp [set, keys, e]
      rw [hk, List.nodup_cons]
      refine ⟨?_, ih hcons.2⟩
      rw [mem_keys_set]
      rintro (h1 | h1)
      · exact e h1
      · exact hcons.1 h1

theorem get_eq_none_of_not_mem {m : GoMap β} {k : String} (h : k ∉ keys m) :
    get m k = none := by
  induction m with
  | nil => rfl
  | cons p rest ih =>
    obtain ⟨a, b⟩ := p
    have h1 : ¬ a = k ∧ k ∉ keys rest := by
      constructor
      · intro e
        exact h (by simp [keys, e])
      · intro e
        exact h (by simp only [keys] at e; simp [keys, e])
    simp [get, h1.1, ih h1.2]

theorem mem_iff_get {m : GoMap β} (h : (keys m).Nodup) (k : String) (v : β) :
    (k, v) ∈ m ↔ get m k = some v := by
  induction m with
  | nil => simp [get]
  | cons p rest ih =>
    obtain ⟨a, b⟩ := p
    have hcons : a ∉ keys rest ∧ (keys rest).Nodup := by
      simpa [keys] using h
    by_cases e : a = k
    · subst e
      have hn : ∀ v, (a, v) ∉ rest := by
        intro v hv
        exact hcons.1 (List.mem_map.2 ⟨(a, v), hv, rfl⟩)
      simp [get, hn, eq_comm]
    · have : ¬ k = a := fun e' => e e'.symm
      simp [get, e, this, ih hcons.2]

theorem get_perm {m₁ m₂ : GoMap β} (hp : List.Perm m₁ m₂) (h : (keys m₁).Nodup)
    (k : String) : get m₁ k = get m₂ k := by
  have h₂ : (keys m₂).Nodup := ((hp.map Prod.fst).nodup_iff).1 h
  apply Option.ext
  intro v
  rw [Option.mem_def, Option.mem_def, ← mem_iff_get h, ← mem_iff_get h₂]
  exact hp.mem_iff

end GoMap

section FoldLemmas

variable {α β : Type} (key : α → String) (val : α → β)

theorem nodup_keys_foldl_set (xs : List α) (m : GoMap β) (h : (GoMap.keys m).Nodup) :
    (GoMap.keys (xs.foldl (fun m x => m.set (key x) (val x)) m)).Nodup := by
  induction xs generalizing m with
  | nil => simpa using h
  | cons x xs ih => exact ih _ (GoMap.nodup_keys_set _ _ h)

theorem get_foldl_set (xs : List α) (m : GoMap β) (k : String) :
    GoMap.get (xs.foldl (fun m x => m.set (key x) (val x)) m) k =
      match lastValue key val xs k with
      | some v => some v
      | none => GoMap.get m k := by
  induction xs generalizing m with
  | nil => simp [lastValue]
  | cons x xs ih =>
    rw [List.foldl_cons, ih, GoMap.get_set]
    cases h : lastValue key val xs k with
    | some v => simp [lastValue, h]
    | none => by_cases e : key x = k <;> simp [lastValue, h, e]

theorem lastValue_append_singleton (xs : List α) (x : α) (k : String) :
    lastValue key val (xs ++ [x]) k =
      if key x = k then some (val x) else lastValue key val xs k := by
  induction xs with
  | nil => simp [lastValue]
  | cons y ys ih =>
    rw [List.cons_append, lastValue, ih]
    by_cases e : key x = k
    · simp [e]
    · simp [e, lastValue]

theorem lastValue_eq_none {xs : List α} {k : String} (h : ∀ x ∈ xs, key x ≠ k) :
    lastValue key val xs k = none := by
  induction xs with
  | nil => rfl
  | cons y ys ih =>
    have h1 : key y ≠ k := h y (List.mem_cons_self _ _)
    have h2 : ∀ x ∈ ys, key x ≠ k := fun x hx => h x (List.mem_cons_of_mem _ hx)
    simp [lastValue, ih h2, h1]

theorem lastValue_filter_ne (xs : List α) (u k : String) :
    lastValue key val (xs.filter fun x => key x ≠ u) k =
      if u = k then none else lastValue key val xs k := by
  induction xs with
  | nil => simp [lastValue]
  | cons y ys ih =>
    by_cases e : key y = u
    · have hf : (y :: ys).filter (fun x => key x ≠ u) = ys.filter (fun x => key x ≠ u) := by
        simp [List.filter_cons, e]
      rw [hf, ih]
      by_cases e' : u = k
      · simp [e']
      · have : ¬ key y = k := fun h => e' (e ▸ h)
        simp [e', lastValue, this]
        cases lastValue key val ys k <;> rfl
    · have hf : (y :: ys).filter (fun x => key x ≠ u) =
          y :: ys.filter (fun x => key x ≠ u) := by
        simp [List.filter_cons, e]
      rw [hf, lastValue, ih]
      by_cases e' : u = k
      · subst e'
        simp [e]
      · simp [e', lastValue]

theorem lastValue_eq_some_iff {xs : List α} (h : (xs.map key).Nodup) (k : String) (v : β) :
    lastValue key val xs k = some v ↔ ∃ x ∈ xs, key x = k ∧ val x = v := by
  induction xs with
  | nil => simp [lastValue]
  | cons y ys ih =>
    have hcons : key y ∉ ys.map key ∧ (ys.map key).Nodup := by
      simpa using h
    by_cases e : key y = k
    · have hn : ∀ x ∈ ys, key x ≠ k := by
        intro x hx hk
        exact hcons.1 (List.mem_map.2 ⟨x, hx, hk.trans e.symm⟩)
      rw [lastValue, lastValue_eq_none key val hn]
      simp only [e, if_true, Option.some.injEq, List.mem_cons]
      constructor
      · intro hv
        exact ⟨y, Or.inl rfl, e, hv⟩
      · rintro ⟨x, hx | hx, hk, hv⟩
        · subst hx
          exact hv
        · exact absurd hk (hn x hx)
    · rw [lastValue]
      have hiff := ih hcons.2
      cases hl : lastValue key val ys k with
      | some w =>
        rw [hl] at hiff
        simp only [List.mem_cons]
        constructor
        · intro hw
          obtain ⟨x, hx, hk, hv⟩ := hiff.1 hw
          exact ⟨x, Or.inr hx, hk, hv⟩
        · rintro ⟨x, hx | hx, hk, hv⟩
          · subst hx
            exact absurd hk e
          · exact hiff.2 ⟨x, hx, hk, hv⟩
      | none =>
        rw [hl] at hiff
        simp only [e, if_false, List.mem_cons]
        constructor
        · intro hw
          cases hw
        · rintro ⟨x, hx | hx, hk, hv⟩
          · subst hx
            exact absurd hk e
          · exact absurd (hiff.2 ⟨x, hx, hk, hv⟩) (by simp)

end FoldLemmas


/-! ## Lemmas on the route table -/

theorem nodup_keys_jsonUnmarshal (members : List (String × String)) :
    (GoMap.keys (jsonUnmarshal members)).Nodup :=
  nodup_keys_foldl_set Prod.fst Prod.snd members [] List.nodup_nil

theorem nodup_keys_routeMapOf (routes : SteplibRoutes) :
    (GoMap.keys (routeMapOf routes)).Nodup :=
  nodup_keys_foldl_set SteplibRoute.SteplibURI SteplibRoute.FolderAlias routes []
    List.nodup_nil

theorem get_routeMapOf (routes : SteplibRoutes) (uri : String) :
    GoMap.get (routeMapOf routes) uri =
      lastValue SteplibRoute.SteplibURI SteplibRoute.FolderAlias routes uri := by
  unfold routeMapOf
  rw [get_foldl_set SteplibRoute.SteplibURI SteplibRoute.FolderAlias]
  cases lastValue SteplibRoute.SteplibURI SteplibRoute.FolderAlias routes uri <;> rfl

/-- Decoding what was encoded gives the map back, entry for entry. -/
theorem get_jsonUnmarshal_jsonMarshal {m : GoMap String} (h : (GoMap.keys m).Nodup)
    (uri : String) : GoMap.get (jsonUnmarshal (jsonMarshal m)) uri = GoMap.get m uri := by
  have hp : List.Perm (jsonMarshal m) m := List.perm_insertionSort _ m
  have hnd : ((jsonMarshal m).map Prod.fst).Nodup := ((hp.map Prod.fst).nodup_iff).2 h
  apply Option.ext
  intro folder
  rw [Option.mem_def, Option.mem_def]
  unfold jsonUnmarshal
  rw [get_foldl_set Prod.fst Prod.snd, ← GoMap.mem_iff_get h]
  have hl := lastValue_eq_some_iff Prod.fst Prod.snd hnd uri folder
  cases hv : lastValue Prod.fst Prod.snd (jsonMarshal m) uri with
  | some w =>
    rw [hv] at hl
    simp only [Option.some.injEq] at hl ⊢
    rw [hl]
    constructor
    · rintro ⟨x, hx, h1, h2⟩
      have : x = (uri, folder) := Prod.ext h1 h2
      exact hp.mem_iff.1 (this ▸ hx)
    · intro hmem
      exact ⟨(uri, folder), hp.mem_iff.2 hmem, rfl, rfl⟩
  | none =>
    rw [hv] at hl
    simp only [GoMap.get]
    constructor
    · intro hc
      cases hc
    · intro hmem
      exact absurd (hl.2 ⟨(uri, folder), hp.mem_iff.2 hmem, rfl, rfl⟩) (by simp)

theorem routeTable_writeToFile (routes : SteplibRoutes) (uri : String) :
    routeTable (writeToFile routes) uri =
      lastValue SteplibRoute.SteplibURI SteplibRoute.FolderAlias routes uri := by
  show GoMap.get (jsonUnmarshal (jsonMarshal (routeMapOf routes))) uri = _
  rw [get_jsonUnmarshal_jsonMarshal (nodup_keys_routeMapOf routes), get_routeMapOf]

/-- What `readRouteMap` returns: no two routes with one URI, and the routes
of the table. -/
theorem readRouteMap_spec {rng : MapRange} {file : RouteFile} {routes : SteplibRoutes}
    (h : readRouteMap rng file = .ok routes) :
    (routes.map SteplibRoute.SteplibURI).Nodup ∧
      ∀ route : SteplibRoute, route ∈ routes ↔
        routeTable file route.SteplibURI = some route.FolderAlias := by
  cases file with
  | absent =>
    simp only [readRouteMap, Except.ok.injEq] at h
    subst h
    simp [routeTable]
  | malformed => simp [readRouteMap] at h
  | object members =>
    simp only [readRouteMap, Except.ok.injEq] at h
    subst h
    have hnd := nodup_keys_jsonUnmarshal members
    have hp := rng.perm (jsonUnmarshal members)
    constructor
    · rw [List.map_map]
      exact ((hp.map Prod.fst).nodup_iff).2 hnd
    · intro route
      simp only [routeTable]
      rw [← GoMap.mem_iff_get hnd, ← hp.mem_iff, List.mem_map]
      constructor
      · rintro ⟨kv, hkv, rfl⟩
        exact hkv
      · intro hmem
        exact ⟨(route.SteplibURI, route.FolderAlias), hmem, rfl⟩

theorem lastValue_readRouteMap {rng : MapRange} {file : RouteFile} {routes : SteplibRoutes}
    (h : readRouteMap rng file = .ok routes) (uri : String) :
    lastValue SteplibRoute.SteplibURI SteplibRoute.FolderAlias routes uri =
      routeTable file uri := by
  obtain ⟨hnd, hmem⟩ := readRouteMap_spec h
  apply Option.ext
  intro folder
  rw [Option.mem_def, Option.mem_def, lastValue_eq_some_iff _ _ hnd]
  constructor
  · rintro ⟨x, hx, rfl, rfl⟩
    exact (hmem x).1 hx
  · intro ht
    exact ⟨⟨uri, folder⟩, (hmem ⟨uri, folder⟩).2 ht, rfl, rfl⟩

theorem readRouteMap_ok (rng : MapRange) {file : RouteFile} (h : file ≠ .malformed) :
    ∃ routes, readRouteMap rng file = .ok routes := by
  cases file with
  | absent => exact ⟨_, rfl⟩
  | malformed => exact absurd rfl h
  | object members => exact ⟨_, rfl⟩

theorem AddRoute_spec (rng : MapRange) (route : SteplibRoute) {file : RouteFile}
    (h : file ≠ .malformed) :
    ∃ file', AddRoute rng route file = .ok file' ∧ file' ≠ .malformed ∧
      ∀ uri, routeTable file' uri =
        if route.SteplibURI = uri then some route.FolderAlias else routeTable file uri := by
  obtain ⟨routes, hr⟩ := readRouteMap_ok rng h
  refine ⟨writeToFile (routes ++ [route]), by simp [AddRoute, hr], by simp [writeToFile], ?_⟩
  intro uri
  rw [routeTable_writeToFile, lastValue_append_singleton, lastValue_readRouteMap hr]

theorem RemoveRoute_spec (rng : MapRange) (route : SteplibRoute) {file : RouteFile}
    (h : file ≠ .malformed) :
    ∃ file', RemoveRoute rng route file = .ok file' ∧ file' ≠ .malformed ∧
      ∀ uri, routeTable file' uri =
        if route.SteplibURI = uri then none else routeTable file uri := by
  obtain ⟨routes, hr⟩ := readRouteMap_ok rng h
  refine ⟨writeToFile (routes.filter fun a => a.SteplibURI ≠ route.SteplibURI),
    by simp [RemoveRoute, hr], by simp [writeToFile], ?_⟩
  intro uri
  rw [routeTable_writeToFile, lastValue_filter_ne, lastValue_readRouteMap hr]


theorem RouteCall.apply_spec (rng : MapRange) (call : RouteCall) {file : RouteFile}
    (h : file ≠ .malformed) :
    ∃ file', call.apply rng file = .ok file' ∧ file' ≠ .malformed ∧
      ∀ uri, routeTable file' uri = call.effect (routeTable file) uri := by
  cases call with
  | add r => exact AddRoute_spec rng r h
  | remove r => exact RemoveRoute_spec rng r h

/-- A sequence of calls on a well-formed routing file: every call succeeds,
and the table moves as `tableAfter` says. -/
theorem runCalls_spec (rng : Nat → MapRange) (k : Nat) (calls : List RouteCall)
    {file : RouteFile} (h : file ≠ .malformed) :
    ∃ file', runCalls rng k calls file = .ok file' ∧ file' ≠ .malformed ∧
      ∀ uri, routeTable file' uri = tableAfter calls (routeTable file) uri := by
  induction calls generalizing k file with
  | nil => exact ⟨file, rfl, h, fun _ => rfl⟩
  | cons call calls ih =>
    obtain ⟨f₁, h₁, hwf, ht⟩ := RouteCall.apply_spec (rng k) call h
    obtain ⟨f₂, h₂, hwf₂, ht₂⟩ := ih (k + 1) hwf
    refine ⟨f₂, by simp [runCalls, h₁, h₂], hwf₂, ?_⟩
    intro uri
    have hfun : routeTable f₁ = call.effect (routeTable file) := funext ht
    rw [ht₂, hfun]
    rfl

theorem tableAfter_lastCallAbout (calls : List RouteCall) (t : String → Option String)
    (uri : String) :
    tableAfter calls t uri =
      match lastCallAbout uri calls with
      | some (.add r) => some r.FolderAlias
      | some (.remove _) => none
      | none => t uri := by
  induction calls generalizing t with
  | nil => rfl
  | cons call calls ih =>
    have hstep : tableAfter (call :: calls) t = tableAfter calls (call.effect t) := rfl
    rw [hstep, ih, lastCallAbout]
    cases hl : lastCallAbout uri calls with
    | some c => cases c <;> rfl
    | none =>
      cases call with
      | add r => by_cases e : r.SteplibURI = uri <;> simp [RouteCall.effect, RouteCall.route, e]
      | remove r =>
        by_cases e : r.SteplibURI = uri <;> simp [RouteCall.effect, RouteCall.route, e]

theorem lastCallAbout_mem {uri : String} {calls : List RouteCall} {c : RouteCall}
    (h : lastCallAbout uri calls = some c) : c ∈ calls ∧ c.route.SteplibURI = uri := by
  induction calls with
  | nil => simp [lastCallAbout] at h
  | cons call calls ih =>
    rw [lastCallAbout] at h
    cases hl : lastCallAbout uri calls with
    | some c' =>
      rw [hl] at h
      simp only [Option.some.injEq] at h
      subst h
      exact ⟨List.mem_cons_of_mem _ (ih hl).1, (ih hl).2⟩
    | none =>
      rw [hl] at h
      by_cases e : call.route.SteplibURI = uri
      · simp only [e, if_true, Option.some.injEq] at h
        subst h
        exact ⟨List.mem_cons_self _ _, e⟩
      · simp [e] at h

theorem GetRoute_not_found {routes : SteplibRoutes} {uri : String}
    (h : ∀ r ∈ routes, r.SteplibURI ≠ uri) : GetRoute routes uri = (⟨"", ""⟩, false) := by
  induction routes with
  | nil => rfl
  | cons r rs ih =>
    have h1 : r.SteplibURI ≠ uri := h r (List.mem_cons_self _ _)
    simp only [GetRoute, h1, if_false]
    exact ih fun x hx => h x (List.mem_cons_of_mem _ hx)

theorem GetRoute_found {routes : SteplibRoutes} {route : SteplibRoute}
    (hnd : (routes.map SteplibRoute.SteplibURI).Nodup) (h : route ∈ routes) :
    GetRoute routes route.SteplibURI = (route, true) := by
  induction routes with
  | nil => cases h
  | cons r rs ih =>
    have hcons : r.SteplibURI ∉ rs.map SteplibRoute.SteplibURI ∧
        (rs.map SteplibRoute.SteplibURI).Nodup := by
      simpa using hnd
    rcases List.mem_cons.1 h with e | hmem
    · subst e
      simp [GetRoute]
    · have hne : r.SteplibURI ≠ route.SteplibURI := by
        intro e
        exact hcons.1 (List.mem_map.2 ⟨route, hmem, e.symm⟩)
      simp only [GetRoute, hne, if_false]
      exact ih hcons.2 hmem

theorem nodup_tableModel (calls : List RouteCall) {routes : SteplibRoutes}
    (h : (routes.map SteplibRoute.SteplibURI).Nodup) :
    ((tableModel calls routes).map SteplibRoute.SteplibURI).Nodup := by
  induction calls generalizing routes with
  | nil => exact h
  | cons call calls ih =>
    have hf : ∀ u : String,
        ((routes.filter fun a => a.SteplibURI ≠ u).map SteplibRoute.SteplibURI).Nodup :=
      fun u => (List.filter_sublist routes).map _ |>.nodup h
    cases call with
    | add r =>
      apply ih
      rw [List.map_append, List.nodup_append]
      refine ⟨hf _, by simp, ?_⟩
      intro a ha hb
      simp only [List.map_cons, List.map_nil, List.mem_singleton] at hb
      obtain ⟨x, hx, rfl⟩ := List.mem_map.1 ha
      have := (List.mem_filter.1 hx).2
      simp only [ne_eq, decide_not, Bool.not_eq_true', decide_eq_false_iff_not] at this
      exact this hb
    | remove r => exact ih (hf _)

theorem lastValue_tableModel (calls : List RouteCall) (routes : SteplibRoutes) (uri : String) :
    lastValue SteplibRoute.SteplibURI SteplibRoute.FolderAlias (tableModel calls routes) uri =
      tableAfter calls
        (lastValue SteplibRoute.SteplibURI SteplibRoute.FolderAlias routes) uri := by
  induction calls generalizing routes with
  | nil => rfl
  | cons call calls ih =>
    cases call with
    | add r =>
      have hstep : tableAfter (.add r :: calls)
          (lastValue SteplibRoute.SteplibURI SteplibRoute.FolderAlias routes) =
          tableAfter calls ((RouteCall.add r).effect
            (lastValue SteplibRoute.SteplibURI SteplibRoute.FolderAlias routes)) := rfl
      rw [tableModel, ih, hstep]
      congr 1
      funext u
      rw [lastValue_append_singleton, lastValue_filter_ne]
      by_cases e : r.SteplibURI = u <;> simp [RouteCall.effect, e]
    | remove r =>
      have hstep : tableAfter (.remove r :: calls)
          (lastValue SteplibRoute.SteplibURI SteplibRoute.FolderAlias routes) =
          tableAfter calls ((RouteCall.remove r).effect
            (lastValue SteplibRoute.SteplibURI SteplibRoute.FolderAlias routes)) := rfl
      rw [tableModel, ih, hstep]
      congr 1
      funext u
      rw [lastValue_filter_ne]
      by_cases e : r.SteplibURI = u <;> simp [RouteCall.effect, e]

/-- The table read back after a sequence of calls on a well-formed file. -/
theorem reloadAfter_spec (rng : Nat → MapRange) (rng' : MapRange) (calls : List RouteCall)
    (file : RouteFile) (h : file ≠ .malformed) :
    ∃ routes, reloadAfter rng rng' calls file = .ok routes ∧
      (routes.map SteplibRoute.SteplibURI).Nodup ∧
      ∀ route : SteplibRoute, route ∈ routes ↔
        tableAfter calls (routeTable file) route.SteplibURI = some route.FolderAlias := by
  obtain ⟨file', hrun, hwf, ht⟩ := runCalls_spec rng 0 calls h
  obtain ⟨routes, hr⟩ := readRouteMap_ok rng' hwf
  obtain ⟨hnd, hmem⟩ := readRouteMap_spec hr
  refine ⟨routes, by simp [reloadAfter, hrun, hr], hnd, ?_⟩
  intro route
  rw [hmem, ht]

theorem mem_tableModel_iff (calls : List RouteCall) (route : SteplibRoute) :
    route ∈ tableModel calls [] ↔
      tableAfter calls (fun _ => none) route.SteplibURI = some route.FolderAlias := by
  have hnd : ((tableModel calls []).map SteplibRoute.SteplibURI).Nodup :=
    nodup_tableModel calls (by simp)
  have hl := lastValue_tableModel calls [] route.SteplibURI
  have h0 : lastValue SteplibRoute.SteplibURI SteplibRoute.FolderAlias [] = fun _ => none :=
    funext fun _ => rfl
  rw [h0] at hl
  rw [← hl, lastValue_eq_some_iff _ _ hnd]
  constructor
  · intro hmem
    exact ⟨route, hmem, rfl, rfl⟩
  · rintro ⟨x, hx, h1, h2⟩
    have : x = route := by
      cases x
      cases route
      simp_all
    exact this ▸ hx

theorem routeTable_empty (file : RouteFile) (h : file = .absent ∨ file = .object []) :
    routeTable file = fun _ => none := by
  rcases h with rfl | rfl <;> exact funext fun _ => rfl

/-! ## The route table: claims -/

/-- C3, as amended: for every sequence of `AddRoute`/`RemoveRoute` calls
starting from an empty route file (absent, or holding the empty object), the
calls succeed and the routes read back are those of the in-memory model in
which an added route replaces the entries with its URI and a removal deletes
every entry with the URI. -/
theorem reload_eq_tableModel (rng : Nat → MapRange) (rng' : MapRange)
    (calls : List RouteCall) :
    (∃ routes, reloadAfter rng rng' calls .absent = .ok routes ∧
      ∀ route, route ∈ routes ↔ route ∈ tableModel calls []) ∧
    (∃ routes, reloadAfter rng rng' calls (.object []) = .ok routes ∧
      ∀ route, route ∈ routes ↔ route ∈ tableModel calls []) := by
  constructor
  · obtain ⟨routes, hr, _, hmem⟩ :=
      reloadAfter_spec rng rng' calls .absent (by simp)
    refine ⟨routes, hr, fun route => ?_⟩
    rw [hmem, mem_tableModel_iff, routeTable_empty _ (Or.inl rfl)]
  · obtain ⟨routes, hr, _, hmem⟩ :=
      reloadAfter_spec rng rng' calls (.object []) (by simp)
    refine ⟨routes, hr, fun route => ?_⟩
    rw [hmem, mem_tableModel_iff, routeTable_empty _ (Or.inr rfl)]

/-- C3, as stated, fails: after `AddRoute(u, a1)` and `AddRoute(u, a2)` on
an absent route file the reload holds `(u, a2)` alone, while the appending
model holds `(u, a1)` as well. -/
theorem reload_ne_listModel :
    ∃ routes,
      reloadAfter (fun _ => MapRange.inOrder) MapRange.inOrder
        [.add ⟨"u", "a1"⟩, .add ⟨"u", "a2"⟩] .absent = .ok routes ∧
      ¬ ∀ route, route ∈ routes ↔
        route ∈ listModel [.add ⟨"u", "a1"⟩, .add ⟨"u", "a2"⟩] [] := by
  refine ⟨[⟨"u", "a2"⟩], rfl, ?_⟩
  intro h
  have h1 := (h ⟨"u", "a1"⟩).2 (by decide)
  revert h1
  decide

/-- C8: after any sequence of `AddRoute`/`RemoveRoute` calls on a
well-formed route file (absent, or any JSON object of strings), every call
succeeds and the table `readRouteMap` loads has no two routes with one
`SteplibURI`. -/
theorem reload_nodup_uri (rng : Nat → MapRange) (rng' : MapRange) (calls : List RouteCall) :
    (∃ routes, reloadAfter rng rng' calls .absent = .ok routes ∧
      (routes.map SteplibRoute.SteplibURI).Nodup) ∧
    ∀ members, ∃ routes, reloadAfter rng rng' calls (.object members) = .ok routes ∧
      (routes.map SteplibRoute.SteplibURI).Nodup := by
  constructor
  · obtain ⟨routes, hr, hnd, _⟩ :=
      reloadAfter_spec rng rng' calls .absent (by simp)
    exact ⟨routes, hr, hnd⟩
  · intro members
    obtain ⟨routes, hr, hnd, _⟩ :=
      reloadAfter_spec rng rng' calls (.object members) (by simp)
    exact ⟨routes, hr, hnd⟩

/-- What `GetRoute` answers on the table read back after a sequence of
calls on an empty route file. -/
theorem getRoute_reload (rng : Nat → MapRange) (rng' : MapRange) (calls : List RouteCall)
    (file : RouteFile) (hfile : file = .absent ∨ file = .object []) :
    ∃ routes, reloadAfter rng rng' calls file = .ok routes ∧
      ∀ uri,
        ((∀ r, RouteCall.add r ∈ calls → r.SteplibURI ≠ uri) →
          (GetRoute routes uri).2 = false) ∧
        (∀ r, lastCallAbout uri calls = some (.remove r) →
          (GetRoute routes uri).2 = false) ∧
        (∀ r, lastCallAbout uri calls = some (.add r) →
          GetRoute routes uri = (r, true)) := by
  have hwf : file ≠ .malformed := by
    rcases hfile with rfl | rfl <;> simp
  obtain ⟨routes, hr, hnd, hmem⟩ := reloadAfter_spec rng rng' calls file hwf
  rw [routeTable_empty file hfile] at hmem
  have hnone : ∀ uri, tableAfter calls (fun _ => none) uri = none →
      (GetRoute routes uri).2 = false := by
    intro uri ht
    have hnf : GetRoute routes uri = (⟨"", ""⟩, false) := by
      apply GetRoute_not_found
      intro r hrm e
      have := (hmem r).1 hrm
      rw [e, ht] at this
      cases this
    rw [hnf]
  refine ⟨routes, hr, fun uri => ⟨?_, ?_, ?_⟩⟩
  · intro hnever
    apply hnone
    rw [tableAfter_lastCallAbout]
    cases hl : lastCallAbout uri calls with
    | none => rfl
    | some c =>
      cases c with
      | add r =>
        have := lastCallAbout_mem hl
        exact absurd this.2 (hnever r this.1)
      | remove r => rfl
  · intro r hl
    apply hnone
    rw [tableAfter_lastCallAbout, hl]
  · intro r hl
    have hu : r.SteplibURI = uri := (lastCallAbout_mem hl).2
    have ht : tableAfter calls (fun _ => none) r.SteplibURI = some r.FolderAlias := by
      rw [tableAfter_lastCallAbout, hu, hl]
    have := GetRoute_found hnd ((hmem r).2 ht)
    rw [hu] at this
    exact this

/-- C9: for every sequence of `AddRoute`/`RemoveRoute` calls starting from
an empty route file (absent, or holding the empty object) the calls succeed,
and on the table read back, for every URI: if no added route had the URI,
`GetRoute` returns found=false; if the last call about the URI is a
`RemoveRoute`, `GetRoute` returns found=false; and if the last call about
the URI is `AddRoute` of a route, `GetRoute` returns that route (the URI
with the alias added last) and found=true. -/
theorem getRoute_after_calls (rng : Nat → MapRange) (rng' : MapRange)
    (calls : List RouteCall) :
    (∃ routes, reloadAfter rng rng' calls .absent = .ok routes ∧
      ∀ uri,
        ((∀ r, RouteCall.add r ∈ calls → r.SteplibURI ≠ uri) →
          (GetRoute routes uri).2 = false) ∧
        (∀ r, lastCallAbout uri calls = some (.remove r) →
          (GetRoute routes uri).2 = false) ∧
        (∀ r, lastCallAbout uri calls = some (.add r) →
          GetRoute routes uri = (r, true))) ∧
    (∃ routes, reloadAfter rng rng' calls (.object []) = .ok routes ∧
      ∀ uri,
        ((∀ r, RouteCall.add r ∈ calls → r.SteplibURI ≠ uri) →
          (GetRoute routes uri).2 = false) ∧
        (∀ r, lastCallAbout uri calls = some (.remove r) →
          (GetRoute routes uri).2 = false) ∧
        (∀ r, lastCallAbout uri calls = some (.add r) →
          GetRoute routes uri = (r, true))) :=
  ⟨getRoute_reload rng rng' calls .absent (Or.inl rfl),
    getRoute_reload rng rng' calls (.object []) (Or.inr rfl)⟩

/-- C9 at a concrete sequence: `u` added twice with two aliases and then
removed, `v` added, `w` never added; the reload does not find `u` nor `w`,
and finds `v` with its alias. -/
theorem getRoute_after_calls_witness :
    ∃ routes,
      reloadAfter (fun _ => MapRange.reversed) MapRange.reversed
        [.add ⟨"u", "a1"⟩, .add ⟨"v", "b"⟩, .add ⟨"u", "a2"⟩, .remove ⟨"u", ""⟩]
        .absent = .ok routes ∧
      (GetRoute routes "w").2 = false ∧ (GetRoute routes "u").2 = false ∧
      GetRoute routes "v" = (⟨"v", "b"⟩, true) := by
  obtain ⟨routes, hr, h⟩ := (getRoute_after_calls (fun _ => MapRange.reversed)
    MapRange.reversed
    [.add ⟨"u", "a1"⟩, .add ⟨"v", "b"⟩, .add ⟨"u", "a2"⟩, .remove ⟨"u", ""⟩]).1
  have hw : ∀ r, RouteCall.add r ∈
      [RouteCall.add ⟨"u", "a1"⟩, .add ⟨"v", "b"⟩, .add ⟨"u", "a2"⟩, .remove ⟨"u", ""⟩] →
      r.SteplibURI ≠ "w" := by
    intro r hmem
    simp only [List.mem_cons, RouteCall.add.injEq, List.mem_singleton, reduceCtorEq,
      or_false, List.mem_nil_iff] at hmem
    rcases hmem with rfl | rfl | rfl <;> decide
  exact ⟨routes, hr, (h "w").1 hw, (h "u").2.1 ⟨"u", ""⟩ (by decide),
    (h "v").2.2 ⟨"v", "b"⟩ (by decide)⟩

/-! ## Lemmas on the step fetcher -/

section FetcherLemmas

variable {World Step : Type} (env : Collaborators World Step)

theorem DownloadStep_eq_loop {CollectionsDirPath : String}
    {collection : StepCollectionModel Step} {id version commithash : String} {w : World}
    {locs : List DownloadLocationModel} {route : SteplibRoute}
    (hloc : env.GetDownloadLocations collection id version = (locs, none))
    (hroute : ReadRoute (env.rangeOrder w) (env.routingFile w) collection.SteplibSource =
      (route, true))
    (hcache : env.IsPathExists (GetStepCacheDirPath CollectionsDirPath route id version) w =
      (false, none)) :
    DownloadStep env CollectionsDirPath collection id version commithash w =
      downloadLoop env (GetStepCacheDirPath CollectionsDirPath route id version) id version
        commithash false locs w := by
  simp [DownloadStep, hloc, hroute, hcache]

theorem DownloadStep_cached {CollectionsDirPath : String}
    {collection : StepCollectionModel Step} {id version commithash : String} {w : World}
    {locs : List DownloadLocationModel} {route : SteplibRoute}
    (hloc : env.GetDownloadLocations collection id version = (locs, none))
    (hroute : ReadRoute (env.rangeOrder w) (env.routingFile w) collection.SteplibSource =
      (route, true))
    (hcache : env.IsPathExists (GetStepCacheDirPath CollectionsDirPath route id version) w =
      (true, none)) :
    DownloadStep env CollectionsDirPath collection id version commithash w =
      ⟨.returned none, [], w⟩ := by
  simp [DownloadStep, hloc, hroute, hcache]

/-- Without a route, a call whose download locations resolve stops at the
method call on the nil `err`. -/
theorem DownloadStep_no_route {CollectionsDirPath : String}
    {collection : StepCollectionModel Step} {id version commithash : String} {w : World}
    {locs : List DownloadLocationModel} {route : SteplibRoute}
    (hloc : env.GetDownloadLocations collection id version = (locs, none))
    (hroute : ReadRoute (env.rangeOrder w) (env.routingFile w) collection.SteplibSource =
      (route, false)) :
    DownloadStep env CollectionsDirPath collection id version commithash w =
      ⟨.nilDereference, [], w⟩ := by
  simp [DownloadStep, hloc, hroute]

/-- The loop walks through a prefix of `zip` and `git` locations whose
transports all fail. -/
theorem downloadLoop_failures (stepPth id version commithash : String) (success : Bool)
    (pre rest : List DownloadLocationModel) (w w₁ : World)
    (hkind : ∀ loc ∈ pre, loc.Type_ = "zip" ∨ loc.Type_ = "git")
    (hfail : worldAfterFailures env (pre.map (transportCallOf stepPth version commithash)) w =
      some w₁) :
    downloadLoop env stepPth id version commithash success (pre ++ rest) w =
      ⟨(downloadLoop env stepPth id version commithash success rest w₁).result,
        pre.map (transportCallOf stepPth version commithash) ++
          (downloadLoop env stepPth id version commithash success rest w₁).calls,
        (downloadLoop env stepPth id version commithash success rest w₁).world⟩ := by
  induction pre generalizing w with
  | nil =>
    simp only [List.map_nil, worldAfterFailures, Option.some.injEq] at hfail
    subst hfail
    rfl
  | cons loc pre ih =>
    have hk := hkind loc (List.mem_cons_self _ _)
    have hrest : ∀ l ∈ pre, l.Type_ = "zip" ∨ l.Type_ = "git" :=
      fun l hl => hkind l (List.mem_cons_of_mem _ hl)
    show downloadLoop env stepPth id version commithash success (loc :: (pre ++ rest)) w = _
    by_cases hz : loc.Type_ = "zip"
    · have hc : transportCallOf stepPth version commithash loc = .zip loc.Src stepPth := by
        simp [transportCallOf, hz]
      rw [List.map_cons, hc, worldAfterFailures, TransportCall.run] at hfail
      rcases hrun : env.DownloadAndUnZIP loc.Src stepPth w with ⟨w', _ | e⟩
      · rw [hrun] at hfail
        cases hfail
      · rw [hrun] at hfail
        rw [downloadLoop, if_pos hz, hrun]
        simp only []
        rw [ih w' hrest hfail, List.map_cons, hc]
        rfl
    · have hg : loc.Type_ = "git" := hk.resolve_left hz
      have hc : transportCallOf stepPth version commithash loc =
          .git loc.Src stepPth version commithash := by
        simp [transportCallOf, hz]
      rw [List.map_cons, hc, worldAfterFailures, TransportCall.run] at hfail
      rcases hrun : env.GitCloneTagOrBranchAndValidateCommitHash loc.Src stepPth version
        commithash w with ⟨w', _ | e⟩
      · rw [hrun] at hfail
        cases hfail
      · rw [hrun] at hfail
        rw [downloadLoop, if_neg hz, if_pos hg, hrun]
        simp only []
        rw [ih w' hrest hfail, List.map_cons, hc]
        rfl

theorem downloadLoop_success (stepPth id version commithash : String) (success : Bool)
    (loc : DownloadLocationModel) (post : List DownloadLocationModel) (w w' : World)
    (hkind : loc.Type_ = "zip" ∨ loc.Type_ = "git")
    (hrun : (transportCallOf stepPth version commithash loc).run env w = (w', none)) :
    downloadLoop env stepPth id version commithash success (loc :: post) w =
      ⟨.returned none, [transportCallOf stepPth version commithash loc], w'⟩ := by
  by_cases hz : loc.Type_ = "zip"
  · simp only [transportCallOf, hz, if_true, TransportCall.run] at hrun
    simp [downloadLoop, hz, hrun, transportCallOf]
  · have hg : loc.Type_ = "git" := hkind.resolve_left hz
    simp only [transportCallOf, hz, if_false, TransportCall.run] at hrun
    simp [downloadLoop, hz, hg, hrun, transportCallOf]

theorem downloadLoop_invalid (stepPth id version commithash : String) (success : Bool)
    (loc : DownloadLocationModel) (post : List DownloadLocationModel) (w : World)
    (hz : loc.Type_ ≠ "zip") (hg : loc.Type_ ≠ "git") :
    downloadLoop env stepPth id version commithash success (loc :: post) w =
      ⟨.returned (some (.invalidDownloadLocation loc.Type_ loc.Src id version)), [], w⟩ := by
  simp [downloadLoop, hz, hg]

end FetcherLemmas

/-- The answer of `ReadRoute` does not depend on the order in which the map
of routes is ranged over. -/
theorem ReadRoute_range (rng rng' : MapRange) (file : RouteFile) (uri : String) :
    ReadRoute rng file uri = ReadRoute rng' file uri := by
  by_cases hwf : file = .malformed
  · subst hwf
    rfl
  · obtain ⟨r₁, h₁⟩ := readRouteMap_ok rng hwf
    obtain ⟨r₂, h₂⟩ := readRouteMap_ok rng' hwf
    obtain ⟨nd₁, m₁⟩ := readRouteMap_spec h₁
    obtain ⟨nd₂, m₂⟩ := readRouteMap_spec h₂
    simp only [ReadRoute, h₁, h₂]
    by_cases hex : ∃ r ∈ r₁, r.SteplibURI = uri
    · obtain ⟨r, hr, rfl⟩ := hex
      have hr₂ : r ∈ r₂ := (m₂ r).2 ((m₁ r).1 hr)
      rw [GetRoute_found nd₁ hr, GetRoute_found nd₂ hr₂]
    · have hn₁ : ∀ r ∈ r₁, r.SteplibURI ≠ uri := fun r hr e => hex ⟨r, hr, e⟩
      have hn₂ : ∀ r ∈ r₂, r.SteplibURI ≠ uri :=
        fun r hr e => hex ⟨r, (m₁ r).2 ((m₂ r).1 hr), e⟩
      rw [GetRoute_not_found hn₁, GetRoute_not_found hn₂]

section FetcherContract

variable {World Step : Type} (env : Collaborators World Step)

/-- Under the transports' contract the loop leaves the routing file as it
was, and when it ends in success the cache directory exists. -/
theorem downloadLoop_world (hc : TransportsFillCache env)
    (stepPth id version commithash : String) (locs : List DownloadLocationModel) (w : World) :
    env.routingFile (downloadLoop env stepPth id version commithash false locs w).world =
        env.routingFile w ∧
      ((downloadLoop env stepPth id version commithash false locs w).result = .returned none →
        env.IsPathExists stepPth
          (downloadLoop env stepPth id version commithash false locs w).world =
            (true, none)) := by
  induction locs generalizing w with
  | nil => simp [downloadLoop]
  | cons loc rest ih =>
    by_cases hz : loc.Type_ = "zip"
    · have hfile := hc.1 (.zip loc.Src stepPth) w
      have hdir := hc.2 (.zip loc.Src stepPth) w
      simp only [TransportCall.run, TransportCall.dest] at hfile hdir
      rw [downloadLoop, if_pos hz]
      rcases hrun : env.DownloadAndUnZIP loc.Src stepPth w with ⟨w', _ | e⟩
      · rw [hrun] at hfile
        exact ⟨hfile, fun _ => hdir w' hrun⟩
      · rw [hrun] at hfile
        obtain ⟨h1, h2⟩ := ih w'
        exact ⟨h1.trans hfile, h2⟩
    · by_cases hg : loc.Type_ = "git"
      · have hfile := hc.1 (.git loc.Src stepPth version commithash) w
        have hdir := hc.2 (.git loc.Src stepPth version commithash) w
        simp only [TransportCall.run, TransportCall.dest] at hfile hdir
        rw [downloadLoop, if_neg hz, if_pos hg]
        rcases hrun : env.GitCloneTagOrBranchAndValidateCommitHash loc.Src stepPth version
          commithash w with ⟨w', _ | e⟩
        · rw [hrun] at hfile
          exact ⟨hfile, fun _ => hdir w' hrun⟩
        · rw [hrun] at hfile
          obtain ⟨h1, h2⟩ := ih w'
          exact ⟨h1.trans hfile, h2⟩
      · rw [downloadLoop, if_neg hz, if_neg hg]
        simp

end FetcherContract

theorem sampleEnv_contract : TransportsFillCache sampleEnv := by
  constructor
  · intro call w
    cases call with
    | zip src dest =>
      simp only [TransportCall.run, sampleEnv]
      split <;> rfl
    | git src dest version commithash =>
      simp only [TransportCall.run, sampleEnv]
      split <;> rfl
  · intro call w w' h
    cases call with
    | zip src dest =>
      simp only [TransportCall.run, sampleEnv] at h
      split at h
      · simp only [Prod.mk.injEq, and_true] at h
        subst h
        simp [TransportCall.dest, sampleEnv]
      · simp at h
    | git src dest version commithash =>
      simp only [TransportCall.run, sampleEnv] at h
      split at h
      · simp only [Prod.mk.injEq, and_true] at h
        subst h
        simp [TransportCall.dest, sampleEnv]
      · simp at h

/-! ## The step fetcher: claims -/

/-- C1, the code at a failing input: the download locations of the step
resolve and the library has no route; `DownloadStep` does not return an
error value, it stops at the call `err.Error()` on the nil `err`, before any
transport. -/
theorem DownloadStep_missing_route_panics :
    DownloadStep sampleEnv "/home/.stepman/step_collections"
        (sampleCollection [⟨"zip", "good-url"⟩]) "A" "1.0.0" "c0ffee" unroutedWorld =
      ⟨.nilDereference, [], unroutedWorld⟩ ∧
    ∀ err, (DownloadStep sampleEnv "/home/.stepman/step_collections"
        (sampleCollection [⟨"zip", "good-url"⟩]) "A" "1.0.0" "c0ffee" unroutedWorld).result ≠
      .returned err := by
  have h : DownloadStep sampleEnv "/home/.stepman/step_collections"
        (sampleCollection [⟨"zip", "good-url"⟩]) "A" "1.0.0" "c0ffee" unroutedWorld =
      ⟨.nilDereference, [], unroutedWorld⟩ :=
    DownloadStep_no_route sampleEnv rfl rfl
  refine ⟨h, fun err => ?_⟩
  rw [h]
  simp

/-- C4: when the download locations resolve to `pre ++ c :: post`, the
route exists and the cache directory does not, the locations of `pre` and
`c` are `zip` or `git`, every transport call for `pre` fails and the one
for `c` succeeds, then `DownloadStep` returns success, the transports it
invokes are those of `pre` and then of `c`, in order, and nothing of `post`
is attempted: the state left is the one after the call for `c`. -/
theorem DownloadStep_first_success {World Step : Type} (env : Collaborators World Step)
    (CollectionsDirPath : String) (collection : StepCollectionModel Step)
    (id version commithash : String) (w w₁ w₂ : World) (route : SteplibRoute)
    (pre post : List DownloadLocationModel) (c : DownloadLocationModel)
    (hloc : env.GetDownloadLocations collection id version = (pre ++ c :: post, none))
    (hroute : ReadRoute (env.rangeOrder w) (env.routingFile w) collection.SteplibSource =
      (route, true))
    (hcache : env.IsPathExists (GetStepCacheDirPath CollectionsDirPath route id version) w =
      (false, none))
    (hkind : ∀ loc ∈ pre ++ [c], loc.Type_ = "zip" ∨ loc.Type_ = "git")
    (hfail : worldAfterFailures env (pre.map (transportCallOf
      (GetStepCacheDirPath CollectionsDirPath route id version) version commithash)) w =
      some w₁)
    (hok : (transportCallOf (GetStepCacheDirPath CollectionsDirPath route id version)
      version commithash c).run env w₁ = (w₂, none)) :
    DownloadStep env CollectionsDirPath collection id version commithash w =
      ⟨.returned none,
        (pre ++ [c]).map (transportCallOf
          (GetStepCacheDirPath CollectionsDirPath route id version) version commithash),
        w₂⟩ := by
  have hpre : ∀ loc ∈ pre, loc.Type_ = "zip" ∨ loc.Type_ = "git" :=
    fun loc h => hkind loc (List.mem_append_left _ h)
  have hc : c.Type_ = "zip" ∨ c.Type_ = "git" :=
    hkind c (List.mem_append_right _ (List.mem_singleton_self c))
  rw [DownloadStep_eq_loop env hloc hroute hcache,
    downloadLoop_failures env _ id version commithash false pre (c :: post) w w₁ hpre hfail,
    downloadLoop_success env _ id version commithash false c post w₁ w₂ hc hok]
  simp

/-- C4 at the locations `[zip:bad-url, git:good-url]`: the call succeeds
and invokes the zip transport and then the git transport. -/
theorem DownloadStep_first_success_witness :
    DownloadStep sampleEnv "/home" (sampleCollection [⟨"zip", "bad-url"⟩, ⟨"git", "good-url"⟩])
        "A" "1.0.0" "c0ffee" routedWorld =
      ⟨.returned none,
        [.zip "bad-url" "/home/alias1/cache/A/1.0.0",
          .git "good-url" "/home/alias1/cache/A/1.0.0" "1.0.0" "c0ffee"],
        ⟨.object [("lib", "alias1")], ["/home/alias1/cache/A/1.0.0"]⟩⟩ :=
  DownloadStep_first_success sampleEnv "/home"
    (sampleCollection [⟨"zip", "bad-url"⟩, ⟨"git", "good-url"⟩]) "A" "1.0.0" "c0ffee"
    routedWorld routedWorld ⟨.object [("lib", "alias1")], ["/home/alias1/cache/A/1.0.0"]⟩
    ⟨"lib", "alias1"⟩ [⟨"zip", "bad-url"⟩] [] ⟨"git", "good-url"⟩
    rfl rfl rfl (by decide) rfl rfl

/-- C5: when the download locations resolve to `pre ++ c :: post`, the
route exists and the cache directory does not, the locations of `pre` are
`zip` or `git` and every transport call for them fails, and the kind of `c`
is neither `zip` nor `git`, then `DownloadStep` returns the
invalid-download-location error, the transports it invoked are those of
`pre` alone, and no transport is invoked for `post`: the state left is the
one after the calls for `pre`. -/
theorem DownloadStep_unsupported_kind {World Step : Type} (env : Collaborators World Step)
    (CollectionsDirPath : String) (collection : StepCollectionModel Step)
    (id version commithash : String) (w w₁ : World) (route : SteplibRoute)
    (pre post : List DownloadLocationModel) (c : DownloadLocationModel)
    (hloc : env.GetDownloadLocations collection id version = (pre ++ c :: post, none))
    (hroute : ReadRoute (env.rangeOrder w) (env.routingFile w) collection.SteplibSource =
      (route, true))
    (hcache : env.IsPathExists (GetStepCacheDirPath CollectionsDirPath route id version) w =
      (false, none))
    (hkind : ∀ loc ∈ pre, loc.Type_ = "zip" ∨ loc.Type_ = "git")
    (hfail : worldAfterFailures env (pre.map (transportCallOf
      (GetStepCacheDirPath CollectionsDirPath route id version) version commithash)) w =
      some w₁)
    (hz : c.Type_ ≠ "zip") (hg : c.Type_ ≠ "git") :
    DownloadStep env CollectionsDirPath collection id version commithash w =
      ⟨.returned (some (.invalidDownloadLocation c.Type_ c.Src id version)),
        pre.map (transportCallOf
          (GetStepCacheDirPath CollectionsDirPath route id version) version commithash),
        w₁⟩ := by
  rw [DownloadStep_eq_loop env hloc hroute hcache,
    downloadLoop_failures env _ id version commithash false pre (c :: post) w w₁ hkind hfail,
    downloadLoop_invalid env _ id version commithash false c post w₁ hz hg]
  simp

/-- C5 at the locations `[zip:bad-url, tarball:good-url, git:good-url]`:
the call fails at the tarball location after the zip transport alone, and
the git location that would succeed is not attempted. -/
theorem DownloadStep_unsupported_kind_witness :
    DownloadStep sampleEnv "/home"
        (sampleCollection [⟨"zip", "bad-url"⟩, ⟨"tarball", "good-url"⟩, ⟨"git", "good-url"⟩])
        "A" "1.0.0" "c0ffee" routedWorld =
      ⟨.returned (some (.invalidDownloadLocation "tarball" "good-url" "A" "1.0.0")),
        [.zip "bad-url" "/home/alias1/cache/A/1.0.0"], routedWorld⟩ :=
  DownloadStep_unsupported_kind sampleEnv "/home"
    (sampleCollection [⟨"zip", "bad-url"⟩, ⟨"tarball", "good-url"⟩, ⟨"git", "good-url"⟩])
    "A" "1.0.0" "c0ffee" routedWorld routedWorld ⟨"lib", "alias1"⟩
    [⟨"zip", "bad-url"⟩] [⟨"git", "good-url"⟩] ⟨"tarball", "good-url"⟩
    rfl rfl rfl (by decide) rfl (by decide) (by decide)

/-- C6: when the download locations resolve, (1) on every state in which
the route exists and the step-version cache directory
`GetStepCacheDirPath(route, id, version)` exists, `DownloadStep` returns
success, invokes no transport and leaves the state as it was; and (2) when
the transports keep their contract (a transport leaves the routing file
alone, and its destination exists once it succeeds), a second call on the
state left by a first call that returned success returns success, invokes no
transport and leaves that state as it was. -/
theorem DownloadStep_idempotent {World Step : Type} (env : Collaborators World Step)
    (CollectionsDirPath : String) (collection : StepCollectionModel Step)
    (id version commithash : String) (locs : List DownloadLocationModel)
    (hloc : env.GetDownloadLocations collection id version = (locs, none)) :
    (∀ (w : World) (route : SteplibRoute),
      ReadRoute (env.rangeOrder w) (env.routingFile w) collection.SteplibSource =
        (route, true) →
      env.IsPathExists (GetStepCacheDirPath CollectionsDirPath route id version) w =
        (true, none) →
      DownloadStep env CollectionsDirPath collection id version commithash w =
        ⟨.returned none, [], w⟩) ∧
    (TransportsFillCache env → ∀ w : World,
      (DownloadStep env CollectionsDirPath collection id version commithash w).result =
        .returned none →
      DownloadStep env CollectionsDirPath collection id version commithash
          (DownloadStep env CollectionsDirPath collection id version commithash w).world =
        ⟨.returned none, [],
          (DownloadStep env CollectionsDirPath collection id version commithash w).world⟩) := by
  have hcached : ∀ (w : World) (route : SteplibRoute),
      ReadRoute (env.rangeOrder w) (env.routingFile w) collection.SteplibSource =
        (route, true) →
      env.IsPathExists (GetStepCacheDirPath CollectionsDirPath route id version) w =
        (true, none) →
      DownloadStep env CollectionsDirPath collection id version commithash w =
        ⟨.returned none, [], w⟩ :=
    fun w route hroute hcache => DownloadStep_cached env hloc hroute hcache
  refine ⟨hcached, fun hc w hres => ?_⟩
  rcases hroute : ReadRoute (env.rangeOrder w) (env.routingFile w)
    collection.SteplibSource with ⟨route, _ | _⟩
  · rw [DownloadStep_no_route env hloc hroute] at hres
    cases hres
  · rcases hcache : env.IsPathExists
      (GetStepCacheDirPath CollectionsDirPath route id version) w with ⟨_ | _, _ | e⟩
    · have hrun : DownloadStep env CollectionsDirPath collection id version commithash w =
          downloadLoop env (GetStepCacheDirPath CollectionsDirPath route id version) id
            version commithash false locs w :=
        DownloadStep_eq_loop env hloc hroute hcache
      rw [hrun] at hres ⊢
      obtain ⟨hfile, hdir⟩ := downloadLoop_world env hc
        (GetStepCacheDirPath CollectionsDirPath route id version) id version commithash locs w
      apply hcached _ route _ (hdir hres)
      rw [hfile, ReadRoute_range _ (env.rangeOrder w), hroute]
    · have hrun : DownloadStep env CollectionsDirPath collection id version commithash w =
          ⟨.returned (some e), [], w⟩ := by
        simp [DownloadStep, hloc, hroute, hcache]
      rw [hrun] at hres
      cases hres
    · have hrun := hcached w route hroute hcache
      rw [hrun]
      exact hrun
    · have hrun : DownloadStep env CollectionsDirPath collection id version commithash w =
          ⟨.returned (some e), [], w⟩ := by
        simp [DownloadStep, hloc, hroute, hcache]
      rw [hrun] at hres
      cases hres

/-- C6 on the sample machine: a first call downloads through the zip
transport, and a second call on the state it left returns success without
any transport and without changing the state; so does a call on a state
whose cache directory exists. -/
theorem DownloadStep_idempotent_witness :
    DownloadStep sampleEnv "/home" (sampleCollection [⟨"zip", "good-url"⟩]) "A" "1.0.0"
        "c0ffee" ⟨.object [("lib", "alias1")], ["/home/alias1/cache/A/1.0.0"]⟩ =
      ⟨.returned none, [], ⟨.object [("lib", "alias1")], ["/home/alias1/cache/A/1.0.0"]⟩⟩ ∧
    (DownloadStep sampleEnv "/home" (sampleCollection [⟨"zip", "good-url"⟩]) "A" "1.0.0"
        "c0ffee" routedWorld).calls = [.zip "good-url" "/home/alias1/cache/A/1.0.0"] ∧
    DownloadStep sampleEnv "/home" (sampleCollection [⟨"zip", "good-url"⟩]) "A" "1.0.0"
        "c0ffee"
        (DownloadStep sampleEnv "/home" (sampleCollection [⟨"zip", "good-url"⟩]) "A" "1.0.0"
          "c0ffee" routedWorld).world =
      ⟨.returned none, [],
        (DownloadStep sampleEnv "/home" (sampleCollection [⟨"zip", "good-url"⟩]) "A" "1.0.0"
          "c0ffee" routedWorld).world⟩ :=
  ⟨(DownloadStep_idempotent sampleEnv "/home" (sampleCollection [⟨"zip", "good-url"⟩]) "A"
      "1.0.0" "c0ffee" [⟨"zip", "good-url"⟩] rfl).1 _ ⟨"lib", "alias1"⟩ rfl rfl,
    rfl,
    (DownloadStep_idempotent sampleEnv "/home" (sampleCollection [⟨"zip", "good-url"⟩]) "A"
      "1.0.0" "c0ffee" [⟨"zip", "good-url"⟩] rfl).2 sampleEnv_contract routedWorld rfl⟩

/-! ## Lemmas on the collection-spec builder -/

section BuilderLemmas

variable {Step : Type} {α : Type} [LinearOrder α]

theorem addStepVersionToStepGroup_inv (rank : String → α)
    (cmp : String → String → Except StepmanError Int) (all : List String)
    (hne : ∀ v ∈ all, v ≠ "")
    (hcmp : ∀ a ∈ all, ∀ b ∈ all, ∃ r, cmp a b = .ok r ∧ (r = 1 ↔ rank a < rank b))
    (step : Step) (version : String) (g : StepGroupModel Step)
    (hv : version ∈ all) (hg : ∀ k ∈ GoMap.keys g.Versions, k ∈ all)
    (hinv : GroupInv rank g) :
    ∃ g', addStepVersionToStepGroup cmp step version g = .ok g' ∧
      (∀ k, k ∈ GoMap.keys g'.Versions ↔ k = version ∨ k ∈ GoMap.keys g.Versions) ∧
      GroupInv rank g' := by
  obtain ⟨h0, h1, h2⟩ := hinv
  by_cases hl : g.LatestVersionNumber = ""
  · refine ⟨⟨version, g.Versions.set version step⟩, by simp [addStepVersionToStepGroup, hl],
      fun k => GoMap.mem_keys_set _ _ _ _, ?_, ?_, ?_⟩
    · intro e
      exact absurd e (hne version hv)
    · intro _
      exact (GoMap.mem_keys_set _ _ _ _).2 (Or.inl rfl)
    · intro k hk
      rw [h0 hl] at hk
      simp only [GoMap.set, GoMap.keys, List.map_cons, List.map_nil, List.mem_singleton] at hk
      rw [hk]
  · have hlat := h1 hl
    obtain ⟨r, hr, hiff⟩ := hcmp _ (hg _ hlat) _ hv
    by_cases h1r : r = 1
    · have hlt := hiff.1 h1r
      refine ⟨⟨version, g.Versions.set version step⟩,
        by simp [addStepVersionToStepGroup, hl, hr, h1r],
        fun k => GoMap.mem_keys_set _ _ _ _, ?_, ?_, ?_⟩
      · intro e
        exact absurd e (hne version hv)
      · intro _
        exact (GoMap.mem_keys_set _ _ _ _).2 (Or.inl rfl)
      · intro k hk
        rcases (GoMap.mem_keys_set _ _ _ _).1 hk with e | hk'
        · rw [e]
        · exact le_of_lt (lt_of_le_of_lt (h2 k hk') hlt)
    · have hnlt : ¬ rank g.LatestVersionNumber < rank version := fun h => h1r (hiff.2 h)
      refine ⟨⟨g.LatestVersionNumber, g.Versions.set version step⟩,
        by simp [addStepVersionToStepGroup, hl, hr, h1r],
        fun k => GoMap.mem_keys_set _ _ _ _, ?_, ?_, ?_⟩
      · intro e
        exact absurd e hl
      · intro _
        exact (GoMap.mem_keys_set _ _ _ _).2 (Or.inr hlat)
      · intro k hk
        rcases (GoMap.mem_keys_set _ _ _ _).1 hk with e | hk'
        · rw [e]
          exact not_lt.1 hnlt
        · exact h2 k hk'

theorem foldVersions_inv (rank : String → α)
    (cmp : String → String → Except StepmanError Int) (all : List String)
    (hne : ∀ v ∈ all, v ≠ "")
    (hcmp : ∀ a ∈ all, ∀ b ∈ all, ∃ r, cmp a b = .ok r ∧ (r = 1 ↔ rank a < rank b))
    (items : List (String × Step)) (g : StepGroupModel Step)
    (hitems : ∀ it ∈ items, it.1 ∈ all) (hg : ∀ k ∈ GoMap.keys g.Versions, k ∈ all)
    (hinv : GroupInv rank g) :
    ∃ g', foldVersions cmp items g = .ok g' ∧
      (∀ k, k ∈ GoMap.keys g'.Versions ↔
        k ∈ GoMap.keys g.Versions ∨ k ∈ items.map Prod.fst) ∧
      GroupInv rank g' := by
  induction items generalizing g with
  | nil => exact ⟨g, rfl, by simp, hinv⟩
  | cons it rest ih =>
    obtain ⟨version, step⟩ := it
    have hv : version ∈ all := hitems (version, step) (List.mem_cons_self _ _)
    obtain ⟨g₁, hadd, hkeys, hinv₁⟩ :=
      addStepVersionToStepGroup_inv rank cmp all hne hcmp step version g hv hg hinv
    have hg₁ : ∀ k ∈ GoMap.keys g₁.Versions, k ∈ all := by
      intro k hk
      rcases (hkeys k).1 hk with e | hk'
      · exact e ▸ hv
      · exact hg k hk'
    obtain ⟨g₂, hfold, hkeys₂, hinv₂⟩ :=
      ih g₁ (fun x hx => hitems x (List.mem_cons_of_mem _ hx)) hg₁ hinv₁
    refine ⟨g₂, by simp [foldVersions, hadd, hfold], ?_, hinv₂⟩
    intro k
    rw [hkeys₂, hkeys]
    simp only [List.map_cons, List.mem_cons]
    tauto

end BuilderLemmas

/-! ## The collection-spec builder: claims -/

/-- C2: for every sequence of versions folded into an empty step group by
`addStepVersionToStepGroup`, when no version is the empty string and, on the
folded versions, `CompareVersions(a, b)` succeeds and returns 1 exactly
when `b` is greater than `a` in the version order `rank`, the fold succeeds,
its `LatestVersionNumber` is a key of `Versions` (for a non-empty sequence)
and no key of `Versions` is greater, and every folded version is a key of
`Versions`. -/
theorem latestVersion_is_maximum {Step α : Type} [LinearOrder α] (rank : String → α)
    (CompareVersions : String → String → Except StepmanError Int)
    (items : List (String × Step))
    (hne : ∀ it ∈ items, it.1 ≠ "")
    (hcmp : ∀ a ∈ items, ∀ b ∈ items,
      ∃ r, CompareVersions a.1 b.1 = .ok r ∧ (r = 1 ↔ rank a.1 < rank b.1)) :
    ∃ g, foldVersions CompareVersions items ⟨"", []⟩ = .ok g ∧
      (items ≠ [] → g.LatestVersionNumber ∈ GoMap.keys g.Versions) ∧
      (∀ k ∈ GoMap.keys g.Versions, rank k ≤ rank g.LatestVersionNumber) ∧
      (∀ it ∈ items, it.1 ∈ GoMap.keys g.Versions) := by
  have hne' : ∀ v ∈ items.map Prod.fst, v ≠ "" := by
    intro v hv
    obtain ⟨it, hit, rfl⟩ := List.mem_map.1 hv
    exact hne it hit
  have hcmp' : ∀ a ∈ items.map Prod.fst, ∀ b ∈ items.map Prod.fst,
      ∃ r, CompareVersions a b = .ok r ∧ (r = 1 ↔ rank a < rank b) := by
    intro a ha b hb
    obtain ⟨x, hx, rfl⟩ := List.mem_map.1 ha
    obtain ⟨y, hy, rfl⟩ := List.mem_map.1 hb
    exact hcmp x hx y hy
  have hinv0 : GroupInv rank (⟨"", []⟩ : StepGroupModel Step) :=
    ⟨fun _ => rfl, fun h => absurd rfl h, fun k hk => by simp [GoMap.keys] at hk⟩
  obtain ⟨g, hfold, hkeys, h0, h1, h2⟩ :=
    foldVersions_inv rank CompareVersions (items.map Prod.fst) hne' hcmp' items ⟨"", []⟩
      (fun it hit => List.mem_map.2 ⟨it, hit, rfl⟩) (fun k hk => by simp [GoMap.keys] at hk)
      hinv0
  have hmem : ∀ it ∈ items, it.1 ∈ GoMap.keys g.Versions :=
    fun it hit => (hkeys it.1).2 (Or.inr (List.mem_map.2 ⟨it, hit, rfl⟩))
  refine ⟨g, hfold, ?_, h2, hmem⟩
  intro hitems
  apply h1
  intro hl
  obtain ⟨it, rest, rfl⟩ := List.exists_cons_of_ne_nil hitems
  have := hmem it (List.mem_cons_self _ _)
  rw [h0 hl] at this
  simp [GoMap.keys] at this

/-- C2 on the versions 1.0.0 and 2.0.0 of one step: folded in either
order, the latest version is 2.0.0 and both versions are present. -/
theorem latestVersion_is_maximum_witness :
    (∃ g, foldVersions sampleCompareVersions [("1.0.0", "one"), ("2.0.0", "two")]
        (⟨"", []⟩ : StepGroupModel String) = .ok g ∧
      ([("1.0.0", "one"), ("2.0.0", "two")] ≠ [] →
        g.LatestVersionNumber ∈ GoMap.keys g.Versions) ∧
      (∀ k ∈ GoMap.keys g.Versions, versionRank k ≤ versionRank g.LatestVersionNumber) ∧
      (∀ it ∈ [("1.0.0", "one"), ("2.0.0", "two")], it.1 ∈ GoMap.keys g.Versions)) ∧
    foldVersions sampleCompareVersions [("1.0.0", "one"), ("2.0.0", "two")]
        (⟨"", []⟩ : StepGroupModel String) =
      .ok ⟨"2.0.0", [("1.0.0", "one"), ("2.0.0", "two")]⟩ ∧
    foldVersions sampleCompareVersions [("2.0.0", "two"), ("1.0.0", "one")]
        (⟨"", []⟩ : StepGroupModel String) =
      .ok ⟨"2.0.0", [("2.0.0", "two"), ("1.0.0", "one")]⟩ := by
  refine ⟨latestVersion_is_maximum versionRank sampleCompareVersions
    [("1.0.0", "one"), ("2.0.0", "two")] (by decide) ?_, rfl, rfl⟩
  intro a ha b hb
  simp only [List.mem_cons, List.mem_singleton, List.mem_nil_iff, or_false] at ha hb
  rcases ha with rfl | rfl <;> rcases hb with rfl | rfl
  · exact ⟨0, rfl, by decide⟩
  · exact ⟨1, rfl, by decide⟩
  · exact ⟨-1, rfl, by decide⟩
  · exact ⟨0, rfl, by decide⟩

section WalkLemmas

variable {World Step : Type} (env : BuilderEnv World Step)

/-- A visit of a path taken for a step whose definition does not parse: the
callback returns the error of the parse. -/
theorem walkFn_parse_error (route : SteplibRoute) (stepsSpecDir : String) (w : World)
    (entry : WalkEntry) (stepHash : StepHash Step) (id version : String)
    (parseErr : StepmanError)
    (hacc : acceptedStep stepsSpecDir entry.path = some (id, version))
    (hparse : parseStepYml env route.SteplibURI entry.path id version w = .error parseErr) :
    walkFn env route stepsSpecDir w entry stepHash = .error parseErr := by
  simp only [acceptedStep] at hacc
  simp only [walkFn]
  by_cases hm : regexpMatchString (stringsReplace entry.path (stepsSpecDir ++ "/") "") = true
  · rw [if_pos hm] at hacc ⊢
    split at hacc
    · rename_i heq
      simp only [Option.some.injEq, Prod.mk.injEq] at hacc
      obtain ⟨rfl, rfl⟩ := hacc
      simp only [hparse]
    · cases hacc
  · rw [if_neg hm] at hacc
    cases hacc

/-- A visit of a path not taken for a step, without a walk error: the
callback returns nil and leaves the step hash as it was. -/
theorem walkFn_skip (route : SteplibRoute) (stepsSpecDir : String) (w : World)
    (entry : WalkEntry) (stepHash : StepHash Step)
    (hacc : acceptedStep stepsSpecDir entry.path = none) (herr : entry.err = none) :
    walkFn env route stepsSpecDir w entry stepHash = .ok stepHash := by
  simp only [acceptedStep] at hacc
  simp only [walkFn]
  by_cases hm : regexpMatchString (stringsReplace entry.path (stepsSpecDir ++ "/") "") = true
  · rw [if_pos hm] at hacc ⊢
    split at hacc
    · cases hacc
    · simp only [herr]
  · rw [if_neg hm, herr]

theorem walkAll_append (route : SteplibRoute) (stepsSpecDir : String) (w : World)
    (pre rest : List WalkEntry) (h₀ h₁ : StepHash Step)
    (hpre : walkAll env route stepsSpecDir w pre h₀ = .ok h₁) :
    walkAll env route stepsSpecDir w (pre ++ rest) h₀ =
      walkAll env route stepsSpecDir w rest h₁ := by
  induction pre generalizing h₀ with
  | nil =>
    simp only [walkAll, Except.ok.injEq] at hpre
    subst hpre
    rfl
  | cons entry pre ih =>
    rw [List.cons_append, walkAll]
    rw [walkAll] at hpre
    cases hfn : walkFn env route stepsSpecDir w entry h₀ with
    | error err =>
      rw [hfn] at hpre
      cases hpre
    | ok h' =>
      rw [hfn] at hpre
      exact ih h' hpre

/-- A walk that visits a path taken for a step whose definition does not
parse ends in an error, whatever the order of the visits. -/
theorem walkAll_parse_error (route : SteplibRoute) (stepsSpecDir : String) (w : World)
    (entries : List WalkEntry) (stepHash : StepHash Step) (entry : WalkEntry)
    (id version : String) (parseErr : StepmanError) (hmem : entry ∈ entries)
    (hacc : acceptedStep stepsSpecDir entry.path = some (id, version))
    (hparse : parseStepYml env route.SteplibURI entry.path id version w = .error parseErr) :
    ∃ err, walkAll env route stepsSpecDir w entries stepHash = .error err := by
  induction entries generalizing stepHash with
  | nil => cases hmem
  | cons x rest ih =>
    rw [walkAll]
    cases hfn : walkFn env route stepsSpecDir w x stepHash with
    | error err => exact ⟨err, rfl⟩
    | ok h' =>
      rcases List.mem_cons.1 hmem with e | hrest
      · subst e
        rw [walkFn_parse_error env route stepsSpecDir w entry stepHash id version parseErr
          hacc hparse] at hfn
        cases hfn
      · exact ih h' hrest

end WalkLemmas

/-- C7, the code at a failing input: next to `steps/A/1.0.0/step.yml` lies
the backup `steps/A/1.0.0/step.yml.bak`. Its final component is not a
step-definition file name, yet the path is taken for step `A` at version
1.0.0 and parsed, and its content takes the place of the definition in the
collection. -/
theorem generateStepLib_parses_backup_file :
    isStepDefinitionFileName "step.yml.bak" = false ∧
    stringsSplit (stringsReplace "/h/a1/collection/steps/A/1.0.0/step.yml.bak"
        (GetCollectionBaseDirPath "/h" ⟨"lib", "a1"⟩ ++ "/") "") =
      ["steps", "A", "1.0.0", "step.yml.bak"] ∧
    acceptedStep (GetCollectionBaseDirPath "/h" ⟨"lib", "a1"⟩)
        "/h/a1/collection/steps/A/1.0.0/step.yml.bak" = some ("A", "1.0.0") ∧
    generateStepLib sampleBuilder "/h" ⟨"lib", "a1"⟩ (sampleCollection []) backupDisk =
      (⟨"1", 0, "lib", [], [("A", ⟨"1.0.0", [("1.0.0", "title: stale")]⟩)]⟩, none) := by
  refine ⟨by decide, by decide, by decide, rfl⟩


section AbortLemmas

variable {World Step : Type} (env : BuilderEnv World Step)

/-- A definition that fails the step-model contract makes `parseStepYml`
fail. -/
theorem parseStepYml_fails (collectionURI pth id version : String) (w : World)
    (h : StepDefinitionFails env pth w) :
    ∃ err, parseStepYml env collectionURI pth id version w = .error err := by
  rcases h with ⟨e, h0⟩ | ⟨b, e, h0, h1⟩ | ⟨b, s₀, e, h0, h1, h2⟩ |
    ⟨b, s₀, s₁, e, h0, h1, h2, h3⟩ | ⟨b, s₀, s₁, s₂, e, h0, h1, h2, h3, h4⟩
  · exact ⟨e, by simp [parseStepYml, h0, bind, Except.bind]⟩
  · exact ⟨e, by simp [parseStepYml, h0, h1, bind, Except.bind]⟩
  · exact ⟨e, by simp [parseStepYml, h0, h1, h2, bind, Except.bind]⟩
  · exact ⟨e, by simp [parseStepYml, h0, h1, h2, h3, bind, Except.bind]⟩
  · exact ⟨e, by simp [parseStepYml, h0, h1, h2, h3, h4, bind, Except.bind]⟩

/-- What a successful `addStepVersionToStepGroup` did to the latest
version. -/
theorem addStepVersionToStepGroup_ok {cmp : String → String → Except StepmanError Int}
    {step : Step} {version : String} {g g' : StepGroupModel Step}
    (h : addStepVersionToStepGroup cmp step version g = .ok g') :
    (g.LatestVersionNumber = "" ∧ g'.LatestVersionNumber = version) ∨
    (g.LatestVersionNumber ≠ "" ∧ (∃ r, cmp g.LatestVersionNumber version = .ok r) ∧
      (g'.LatestVersionNumber = version ∨ g'.LatestVersionNumber = g.LatestVersionNumber)) := by
  unfold addStepVersionToStepGroup at h
  by_cases hl : g.LatestVersionNumber = ""
  · left
    simp only [hl, ne_eq, not_true_eq_false, if_false, Except.ok.injEq] at h
    subst h
    exact ⟨hl, rfl⟩
  · right
    simp only [ne_eq, hl, not_false_eq_true, if_true] at h
    cases hc : cmp g.LatestVersionNumber version with
    | error err =>
      rw [hc] at h
      cases h
    | ok r =>
      rw [hc] at h
      simp only [Except.ok.injEq] at h
      subst h
      refine ⟨hl, ⟨r, rfl⟩, ?_⟩
      by_cases hr : r = 1
      · left
        simp [hr]
      · right
        simp [hr]

/-- What a visit that went through did to the step hash. -/
theorem walkFn_ok (route : SteplibRoute) (stepsSpecDir : String) (w : World)
    (entry : WalkEntry) (h h' : StepHash Step)
    (hok : walkFn env route stepsSpecDir w entry h = .ok h') :
    (acceptedStep stepsSpecDir entry.path = none ∧ h' = h) ∨
    ∃ id version step g', acceptedStep stepsSpecDir entry.path = some (id, version) ∧
      addStepVersionToStepGroup env.CompareVersions step version (groupAt h id) = .ok g' ∧
      h' = GoMap.set h id g' := by
  simp only [walkFn] at hok
  simp only [acceptedStep]
  by_cases hm : regexpMatchString (stringsReplace entry.path (stepsSpecDir ++ "/") "") = true
  · rw [if_pos hm] at hok ⊢
    split at hok
    · rename_i a id version b heq
      right
      cases hp : parseStepYml env route.SteplibURI entry.path id version w with
      | error e =>
        rw [hp] at hok
        cases hok
      | ok step =>
        rw [hp] at hok
        simp only [] at hok
        cases ha : addStepVersionToStepGroup env.CompareVersions step version
            (groupAt h id) with
        | error e =>
          unfold groupAt at ha
          rw [ha] at hok
          cases hok
        | ok g' =>
          unfold groupAt at ha
          rw [ha] at hok
          simp only [Except.ok.injEq] at hok
          refine ⟨id, version, step, g', rfl, ?_, hok.symm⟩
          unfold groupAt
          exact ha
    · left
      refine ⟨rfl, ?_⟩
      cases he : entry.err with
      | none =>
        rw [he] at hok
        simp only [Except.ok.injEq] at hok
        exact hok.symm
      | some e =>
        rw [he] at hok
        cases hok
  · rw [if_neg hm] at hok ⊢
    left
    refine ⟨rfl, ?_⟩
    cases he : entry.err with
    | none =>
      rw [he] at hok
      simp only [Except.ok.injEq] at hok
      exact hok.symm
    | some e =>
      rw [he] at hok
      cases hok

end AbortLemmas

section CompareLemmas

variable {World Step : Type} (env : BuilderEnv World Step)

theorem groupAt_of_get {h : StepHash Step} {id : String} {g : StepGroupModel Step}
    (hg : GoMap.get h id = some g) : groupAt h id = g := by
  simp [groupAt, hg]

/-- The latest version of the group a version is folded into is empty or a
version of the walk. -/
theorem groupAt_tracked {stepsSpecDir : String} {entries : List WalkEntry} {id : String}
    {h : StepHash Step} (ht : GroupTracked stepsSpecDir entries id h)
    (hne : (groupAt h id).LatestVersionNumber ≠ "") :
    IsWalkVersion stepsSpecDir entries id (groupAt h id).LatestVersionNumber := by
  cases hget : GoMap.get h id with
  | none =>
    have : groupAt h id = ⟨"", []⟩ := by simp [groupAt, hget]
    rw [this] at hne
    exact absurd rfl hne
  | some g =>
    rw [groupAt_of_get hget]
    exact ht g hget

theorem walkFn_tracked (route : SteplibRoute) (stepsSpecDir : String) (w : World)
    (entries : List WalkEntry) (id : String) (entry : WalkEntry) (h h' : StepHash Step)
    (he : entry ∈ entries) (ht : GroupTracked stepsSpecDir entries id h)
    (hok : walkFn env route stepsSpecDir w entry h = .ok h') :
    GroupTracked stepsSpecDir entries id h' := by
  rcases walkFn_ok env route stepsSpecDir w entry h h' hok with
    ⟨_, rfl⟩ | ⟨id', v', step, g', hacc, hadd, rfl⟩
  · exact ht
  · intro g hg
    rw [GoMap.get_set] at hg
    by_cases hid : id' = id
    · subst hid
      simp only [if_true, Option.some.injEq] at hg
      subst hg
      rcases addStepVersionToStepGroup_ok hadd with ⟨_, hv⟩ | ⟨hne, _, hv | hv⟩
      · rw [hv]
        exact ⟨entry, he, hacc⟩
      · rw [hv]
        exact ⟨entry, he, hacc⟩
      · rw [hv]
        exact groupAt_tracked ht hne
    · simp only [hid, if_false] at hg
      exact ht g hg

theorem walkFn_first (route : SteplibRoute) (stepsSpecDir : String) (w : World)
    (entries : List WalkEntry) (id vb v₁ v₂ : String) (e₁ : WalkEntry) (h h' : StepHash Step)
    (hbad : ∀ v, IsWalkVersion stepsSpecDir entries id v →
      v ≠ "" ∧ (∃ err, env.CompareVersions v vb = .error err) ∧
        (∃ err, env.CompareVersions vb v = .error err))
    (he : e₁ ∈ entries) (hacc₁ : acceptedStep stepsSpecDir e₁.path = some (id, v₁))
    (hvb : vb = v₁ ∨ vb = v₂) (ht : GroupTracked stepsSpecDir entries id h)
    (hok : walkFn env route stepsSpecDir w e₁ h = .ok h') :
    GroupPending stepsSpecDir entries id vb v₂ h' := by
  have hw₁ : IsWalkVersion stepsSpecDir entries id v₁ := ⟨e₁, he, hacc₁⟩
  rcases walkFn_ok env route stepsSpecDir w e₁ h h' hok with
    ⟨hnone, _⟩ | ⟨id', v', step, g', hacc, hadd, rfl⟩
  · rw [hnone] at hacc₁
    cases hacc₁
  · rw [hacc₁] at hacc
    simp only [Option.some.injEq, Prod.mk.injEq] at hacc
    obtain ⟨rfl, rfl⟩ := hacc
    refine ⟨g', by simp [GoMap.get_set], ?_⟩
    rcases addStepVersionToStepGroup_ok hadd with ⟨_, hv⟩ | ⟨hne, ⟨r, hr⟩, hv⟩
    · rw [hv]
      refine ⟨hw₁, ?_⟩
      rcases hvb with e | e
      · exact Or.inr e.symm
      · exact Or.inl e
    · have hwl := groupAt_tracked ht hne
      have hv₂ : vb = v₂ := by
        rcases hvb with e | e
        · obtain ⟨err, herr⟩ := (hbad _ hwl).2.1
          rw [e, hr] at herr
          cases herr
        · exact e
      refine ⟨?_, Or.inl hv₂⟩
      rcases hv with hv | hv
      · rw [hv]
        exact hw₁
      · rw [hv]
        exact hwl

theorem walkFn_pending (route : SteplibRoute) (stepsSpecDir : String) (w : World)
    (entries : List WalkEntry) (id vb v₂ : String) (entry : WalkEntry) (h h' : StepHash Step)
    (hbad : ∀ v, IsWalkVersion stepsSpecDir entries id v →
      v ≠ "" ∧ (∃ err, env.CompareVersions v vb = .error err) ∧
        (∃ err, env.CompareVersions vb v = .error err))
    (he : entry ∈ entries) (hp : GroupPending stepsSpecDir entries id vb v₂ h)
    (hok : walkFn env route stepsSpecDir w entry h = .ok h') :
    GroupPending stepsSpecDir entries id vb v₂ h' := by
  obtain ⟨g, hg, hw, hor⟩ := hp
  rcases walkFn_ok env route stepsSpecDir w entry h h' hok with
    ⟨_, rfl⟩ | ⟨id', v', step, g', hacc, hadd, rfl⟩
  · exact ⟨g, hg, hw, hor⟩
  · by_cases hid : id' = id
    · subst hid
      rw [groupAt_of_get hg] at hadd
      have hw' : IsWalkVersion stepsSpecDir entries id' v' := ⟨entry, he, hacc⟩
      rcases addStepVersionToStepGroup_ok hadd with ⟨hl, _⟩ | ⟨_, ⟨r, hr⟩, hv⟩
      · exact absurd hl (hbad _ hw).1
      · rcases hor with e | e
        · refine ⟨g', by simp [GoMap.get_set], ?_, Or.inl e⟩
          rcases hv with hv | hv
          · rw [hv]
            exact hw'
          · rw [hv]
            exact hw
        · obtain ⟨err, herr⟩ := (hbad _ hw').2.2
          rw [← e, hr] at herr
          cases herr
    · refine ⟨g, ?_, hw, hor⟩
      rw [GoMap.get_set]
      simp only [hid, if_false]
      exact hg

theorem walkFn_second (route : SteplibRoute) (stepsSpecDir : String) (w : World)
    (entries : List WalkEntry) (id vb v₂ : String) (e₂ : WalkEntry) (h h' : StepHash Step)
    (hbad : ∀ v, IsWalkVersion stepsSpecDir entries id v →
      v ≠ "" ∧ (∃ err, env.CompareVersions v vb = .error err) ∧
        (∃ err, env.CompareVersions vb v = .error err))
    (he : e₂ ∈ entries) (hacc₂ : acceptedStep stepsSpecDir e₂.path = some (id, v₂))
    (hp : GroupPending stepsSpecDir entries id vb v₂ h)
    (hok : walkFn env route stepsSpecDir w e₂ h = .ok h') : False := by
  obtain ⟨g, hg, hw, hor⟩ := hp
  have hw₂ : IsWalkVersion stepsSpecDir entries id v₂ := ⟨e₂, he, hacc₂⟩
  rcases walkFn_ok env route stepsSpecDir w e₂ h h' hok with
    ⟨hnone, _⟩ | ⟨id', v', step, g', hacc, hadd, _⟩
  · rw [hnone] at hacc₂
    cases hacc₂
  · rw [hacc₂] at hacc
    simp only [Option.some.injEq, Prod.mk.injEq] at hacc
    obtain ⟨rfl, rfl⟩ := hacc
    rw [groupAt_of_get hg] at hadd
    rcases addStepVersionToStepGroup_ok hadd with ⟨hl, _⟩ | ⟨_, ⟨r, hr⟩, _⟩
    · exact absurd hl (hbad _ hw).1
    · rcases hor with e | e
      · obtain ⟨err, herr⟩ := (hbad _ hw).2.1
        rw [e, hr] at herr
        cases herr
      · obtain ⟨err, herr⟩ := (hbad _ hw₂).2.2
        rw [← e, hr] at herr
        cases herr

theorem walkAll_ok_inv (route : SteplibRoute) (stepsSpecDir : String) (w : World)
    (S : StepHash Step → Prop) (l : List WalkEntry)
    (hstep : ∀ e ∈ l, ∀ h h', S h → walkFn env route stepsSpecDir w e h = .ok h' → S h')
    (h h' : StepHash Step) (hS : S h)
    (hok : walkAll env route stepsSpecDir w l h = .ok h') : S h' := by
  induction l generalizing h with
  | nil =>
    simp only [walkAll, Except.ok.injEq] at hok
    exact hok ▸ hS
  | cons e l ih =>
    rw [walkAll] at hok
    cases hfn : walkFn env route stepsSpecDir w e h with
    | error err =>
      rw [hfn] at hok
      cases hok
    | ok h₁ =>
      rw [hfn] at hok
      exact ih (fun x hx => hstep x (List.mem_cons_of_mem _ hx)) h₁
        (hstep e (List.mem_cons_self _ _) h h₁ hS hfn) hok

theorem walkAll_ok_split (route : SteplibRoute) (stepsSpecDir : String) (w : World)
    (a b : List WalkEntry) (h h'' : StepHash Step)
    (hok : walkAll env route stepsSpecDir w (a ++ b) h = .ok h'') :
    ∃ h', walkAll env route stepsSpecDir w a h = .ok h' ∧
      walkAll env route stepsSpecDir w b h' = .ok h'' := by
  induction a generalizing h with
  | nil => exact ⟨h, rfl, hok⟩
  | cons e a ih =>
    rw [List.cons_append, walkAll] at hok
    cases hfn : walkFn env route stepsSpecDir w e h with
    | error err =>
      rw [hfn] at hok
      cases hok
    | ok h₁ =>
      rw [hfn] at hok
      obtain ⟨h', h1, h2⟩ := ih h₁ hok
      exact ⟨h', by rw [walkAll, hfn]; exact h1, h2⟩

/-- A walk that visits the step twice, one of the two versions not
comparing with the versions of the step, ends in an error. -/
theorem walkAll_compare_error (route : SteplibRoute) (stepsSpecDir : String) (w : World)
    (l₁ l₂ l₃ : List WalkEntry) (e₁ e₂ : WalkEntry) (id v₁ v₂ vb : String)
    (hacc₁ : acceptedStep stepsSpecDir e₁.path = some (id, v₁))
    (hacc₂ : acceptedStep stepsSpecDir e₂.path = some (id, v₂))
    (hvb : vb = v₁ ∨ vb = v₂)
    (hbad : ∀ e ∈ l₁ ++ e₁ :: (l₂ ++ e₂ :: l₃), ∀ v,
      acceptedStep stepsSpecDir e.path = some (id, v) →
      v ≠ "" ∧ (∃ err, env.CompareVersions v vb = .error err) ∧
        (∃ err, env.CompareVersions vb v = .error err)) :
    ∃ err, walkAll env route stepsSpecDir w (l₁ ++ e₁ :: (l₂ ++ e₂ :: l₃)) [] =
      .error err := by
  have hbad' : ∀ v, IsWalkVersion stepsSpecDir (l₁ ++ e₁ :: (l₂ ++ e₂ :: l₃)) id v →
      v ≠ "" ∧ (∃ err, env.CompareVersions v vb = .error err) ∧
        (∃ err, env.CompareVersions vb v = .error err) := by
    rintro v ⟨e, he, hacc⟩
    exact hbad e he v hacc
  have hm₁ : e₁ ∈ l₁ ++ e₁ :: (l₂ ++ e₂ :: l₃) := by simp
  have hm₂ : e₂ ∈ l₁ ++ e₁ :: (l₂ ++ e₂ :: l₃) := by simp
  have hl₁ : ∀ e ∈ l₁, e ∈ l₁ ++ e₁ :: (l₂ ++ e₂ :: l₃) :=
    fun e he => List.mem_append_left _ he
  have hl₂ : ∀ e ∈ l₂, e ∈ l₁ ++ e₁ :: (l₂ ++ e₂ :: l₃) := by
    intro e he
    simp [he]
  cases hw : walkAll env route stepsSpecDir w (l₁ ++ e₁ :: (l₂ ++ e₂ :: l₃)) [] with
  | error err => exact ⟨err, rfl⟩
  | ok hf =>
    exfalso
    obtain ⟨h₁, hw₁, hrest⟩ := walkAll_ok_split env route stepsSpecDir w l₁ _ [] hf hw
    have ht₀ : GroupTracked stepsSpecDir (l₁ ++ e₁ :: (l₂ ++ e₂ :: l₃)) id
        ([] : StepHash Step) := by
      intro g hg
      simp [GoMap.get] at hg
    have ht₁ := walkAll_ok_inv env route stepsSpecDir w
      (GroupTracked stepsSpecDir (l₁ ++ e₁ :: (l₂ ++ e₂ :: l₃)) id) l₁
      (fun e he h h' hS hok => walkFn_tracked env route stepsSpecDir w _ id e h h'
        (hl₁ e he) hS hok) [] h₁ ht₀ hw₁
    rw [walkAll] at hrest
    cases hfn₁ : walkFn env route stepsSpecDir w e₁ h₁ with
    | error err =>
      rw [hfn₁] at hrest
      cases hrest
    | ok h₂ =>
      rw [hfn₁] at hrest
      have hp₂ := walkFn_first env route stepsSpecDir w _ id vb v₁ v₂ e₁ h₁ h₂ hbad' hm₁
        hacc₁ hvb ht₁ hfn₁
      obtain ⟨h₃, hw₂, hrest₂⟩ := walkAll_ok_split env route stepsSpecDir w l₂ _ h₂ hf hrest
      have hp₃ := walkAll_ok_inv env route stepsSpecDir w
        (GroupPending stepsSpecDir (l₁ ++ e₁ :: (l₂ ++ e₂ :: l₃)) id vb v₂) l₂
        (fun e he h h' hS hok => walkFn_pending env route stepsSpecDir w _ id vb v₂ e h h'
          hbad' (hl₂ e he) hS hok) h₂ h₃ hp₂ hw₂
      rw [walkAll] at hrest₂
      cases hfn₂ : walkFn env route stepsSpecDir w e₂ h₃ with
      | error err =>
        rw [hfn₂] at hrest₂
        cases hrest₂
      | ok h₄ =>
        exact walkFn_second env route stepsSpecDir w _ id vb v₂ e₂ h₃ h₄ hbad' hm₂ hacc₂
          hp₃ hfn₂

end CompareLemmas

section AbortOfWalk

variable {World Step : Type} (env : BuilderEnv World Step)

/-- A walk that ends in an error: `generateStepLib` returns the error and
the empty collection, and `WriteStepSpecToFile` returns the error, leaves
the state the build ran on and, under the laws of the operating system, no
spec file. -/
theorem abort_of_walk_error (CollectionsDirPath : String) (route : SteplibRoute)
    (templateCollection : StepCollectionModel Step) (w : World) (err : StepmanError)
    (hwalk : walkAll env route (GetCollectionBaseDirPath CollectionsDirPath route) w
      (env.Walk (GetCollectionBaseDirPath CollectionsDirPath route) w) [] = .error err) :
    generateStepLib env CollectionsDirPath route templateCollection w =
        (emptyCollection Step, some err) ∧
      ∀ w₀, SpecPathPrepared env (GetStepSpecPath CollectionsDirPath route) w₀ w →
        WriteStepSpecToFile env CollectionsDirPath templateCollection route w₀ =
          (w, some err) ∧
        (SpecPathLaws env (GetStepSpecPath CollectionsDirPath route) →
          env.IsPathExists (GetStepSpecPath CollectionsDirPath route) w = (false, none)) := by
  have hgen : generateStepLib env CollectionsDirPath route templateCollection w =
      (emptyCollection Step, some err) := by
    simp [generateStepLib, hwalk]
  refine ⟨hgen, fun w₀ hprep => ?_⟩
  rcases hprep with ⟨hex, hrm⟩ | ⟨hex, hmk⟩
  · have hp : prepareSpecPath env (GetStepSpecPath CollectionsDirPath route) w₀ =
        (w, none) := by
      simp [prepareSpecPath, hex, hrm]
    exact ⟨by simp [WriteStepSpecToFile, hp, hgen], fun hlaws => hlaws.1 w₀ w hrm⟩
  · have hp : prepareSpecPath env (GetStepSpecPath CollectionsDirPath route) w₀ =
        (w, none) := by
      simp [prepareSpecPath, hex, hmk]
    exact ⟨by simp [WriteStepSpecToFile, hp, hgen], fun hlaws => hlaws.2 w₀ w hex hmk⟩

end AbortOfWalk

/-- C10: on every state `w` of a collection root, (1) when the walk visits,
in whatever place, a path taken for a step version whose definition fails
the step-model contract (reading, decoding, normalization, strict
validation or default-filling, as `StepDefinitionFails` spells out), and
(2) when the walk visits twice a step, at the versions `v₁` and then `v₂`,
one of them a version `vb` for which `CompareVersions` fails against every
version of the step in the walk (no version being the empty string), then
`generateStepLib` returns an error together with the empty collection, not
a partial one; and for every state `w₀` from which `WriteStepSpecToFile`
reaches `w` by removing the earlier spec file or by making its directory,
`WriteStepSpecToFile` returns that error, leaves the state `w` without
writing and, under the laws of the operating system, no spec file exists at
the spec path. -/
theorem generateStepLib_all_or_nothing {World Step : Type} (env : BuilderEnv World Step)
    (CollectionsDirPath : String) (route : SteplibRoute)
    (templateCollection : StepCollectionModel Step) :
    (∀ (w : World) (entry : WalkEntry) (id version : String),
      entry ∈ env.Walk (GetCollectionBaseDirPath CollectionsDirPath route) w →
      acceptedStep (GetCollectionBaseDirPath CollectionsDirPath route) entry.path =
        some (id, version) →
      StepDefinitionFails env entry.path w →
      ∃ err, generateStepLib env CollectionsDirPath route templateCollection w =
          (emptyCollection Step, some err) ∧
        ∀ w₀, SpecPathPrepared env (GetStepSpecPath CollectionsDirPath route) w₀ w →
          WriteStepSpecToFile env CollectionsDirPath templateCollection route w₀ =
            (w, some err) ∧
          (SpecPathLaws env (GetStepSpecPath CollectionsDirPath route) →
            env.IsPathExists (GetStepSpecPath CollectionsDirPath route) w =
              (false, none))) ∧
    (∀ (w : World) (l₁ l₂ l₃ : List WalkEntry) (e₁ e₂ : WalkEntry) (id v₁ v₂ vb : String),
      env.Walk (GetCollectionBaseDirPath CollectionsDirPath route) w =
        l₁ ++ e₁ :: (l₂ ++ e₂ :: l₃) →
      acceptedStep (GetCollectionBaseDirPath CollectionsDirPath route) e₁.path =
        some (id, v₁) →
      acceptedStep (GetCollectionBaseDirPath CollectionsDirPath route) e₂.path =
        some (id, v₂) →
      (vb = v₁ ∨ vb = v₂) →
      (∀ e ∈ env.Walk (GetCollectionBaseDirPath CollectionsDirPath route) w, ∀ v,
        acceptedStep (GetCollectionBaseDirPath CollectionsDirPath route) e.path =
          some (id, v) →
        v ≠ "" ∧ (∃ err, env.CompareVersions v vb = .error err) ∧
          (∃ err, env.CompareVersions vb v = .error err)) →
      ∃ err, generateStepLib env CollectionsDirPath route templateCollection w =
          (emptyCollection Step, some err) ∧
        ∀ w₀, SpecPathPrepared env (GetStepSpecPath CollectionsDirPath route) w₀ w →
          WriteStepSpecToFile env CollectionsDirPath templateCollection route w₀ =
            (w, some err) ∧
          (SpecPathLaws env (GetStepSpecPath CollectionsDirPath route) →
            env.IsPathExists (GetStepSpecPath CollectionsDirPath route) w =
              (false, none))) := by
  constructor
  · intro w entry id version hmem hacc hfails
    obtain ⟨parseErr, hparse⟩ :=
      parseStepYml_fails env route.SteplibURI entry.path id version w hfails
    obtain ⟨err, herr⟩ := walkAll_parse_error env route _ w _ [] entry id version parseErr
      hmem hacc hparse
    exact ⟨err, abort_of_walk_error env CollectionsDirPath route templateCollection w err herr⟩
  · intro w l₁ l₂ l₃ e₁ e₂ id v₁ v₂ vb hwalk hacc₁ hacc₂ hvb hbad
    rw [hwalk] at hbad
    obtain ⟨err, herr⟩ := walkAll_compare_error env route _ w l₁ l₂ l₃ e₁ e₂ id v₁ v₂ vb
      hacc₁ hacc₂ hvb hbad
    rw [← hwalk] at herr
    exact ⟨err, abort_of_walk_error env CollectionsDirPath route templateCollection w err herr⟩

theorem sampleBuilder_specPathLaws : SpecPathLaws sampleBuilder "/h/a1/spec/spec.json" := by
  constructor
  · intro w w₁ h
    simp only [sampleBuilder, Prod.mk.injEq, and_true] at h
    subst h
    simp [sampleBuilder, GoMap.keys, List.mem_filter]
  · intro w w₁ hex h
    have hdir : pathSplitDir "/h/a1/spec/spec.json" = "/h/a1/spec/" := by decide
    rw [hdir] at h
    simp only [sampleBuilder, Prod.mk.injEq, and_true] at h
    subst h
    simp only [sampleBuilder, Prod.mk.injEq, and_true, decide_eq_false_iff_not, not_or] at hex
    have hne : ¬ "/h/a1/spec/spec.json" = "/h/a1/spec/" := by decide
    simp [sampleBuilder, hex.1, hex.2, hne]

/-- C10 on the sample machine. Version 2.0.0 of step `A` fails validation:
the build on the root returns an error and the empty collection, and
`WriteStepSpecToFile`, which first removes the spec file of an earlier
build, returns that error and leaves no spec file. Step `A` has the version
`latest`, which the comparison rejects, after the version 1.0.0: the build
returns an error and the empty collection. -/
theorem generateStepLib_all_or_nothing_witness :
    (∃ err, generateStepLib sampleBuilder "/h" ⟨"lib", "a1"⟩ (sampleCollection [])
        clearedStepDisk = (emptyCollection String, some err) ∧
      WriteStepSpecToFile sampleBuilder "/h" (sampleCollection []) ⟨"lib", "a1"⟩
        invalidStepDisk = (clearedStepDisk, some err) ∧
      sampleBuilder.IsPathExists "/h/a1/spec/spec.json" invalidStepDisk = (true, none) ∧
      sampleBuilder.IsPathExists "/h/a1/spec/spec.json" clearedStepDisk = (false, none)) ∧
    (∃ err, generateStepLib sampleBuilder "/h" ⟨"lib", "a1"⟩ (sampleCollection [])
        badVersionDisk = (emptyCollection String, some err)) := by
  have H := generateStepLib_all_or_nothing sampleBuilder "/h" ⟨"lib", "a1"⟩
    (sampleCollection [] : StepCollectionModel String)
  constructor
  · obtain ⟨err, hgen, hwrite⟩ := H.1 clearedStepDisk
      ⟨"/h/a1/collection/steps/A/2.0.0/step.yml", none⟩ "A" "2.0.0" (by decide) (by decide)
      (Or.inr (Or.inr (Or.inr (Or.inl
        ⟨"invalid", "invalid", "invalid", .external "validation failed", rfl, rfl, rfl, rfl⟩))))
    have h := hwrite invalidStepDisk (Or.inl ⟨by decide, rfl⟩)
    exact ⟨err, hgen, h.1, by decide, h.2 sampleBuilder_specPathLaws⟩
  · obtain ⟨err, hgen, _⟩ := H.2 badVersionDisk []
      [] [] ⟨"/h/a1/collection/steps/A/1.0.0/step.yml", none⟩
      ⟨"/h/a1/collection/steps/A/latest/step.yml", none⟩ "A" "1.0.0" "latest" "latest"
      rfl (by decide) (by decide) (Or.inr rfl)
      (by
        intro e he v hacc
        have he' : e = ⟨"/h/a1/collection/steps/A/1.0.0/step.yml", none⟩ ∨
            e = ⟨"/h/a1/collection/steps/A/latest/step.yml", none⟩ := by
          simpa [sampleBuilder, badVersionDisk] using he
        rcases he' with rfl | rfl
        · have hv : v = "1.0.0" := by
            have h1 : acceptedStep (GetCollectionBaseDirPath "/h" ⟨"lib", "a1"⟩)
                "/h/a1/collection/steps/A/1.0.0/step.yml" = some ("A", "1.0.0") := by decide
            rw [h1] at hacc
            simp only [Option.some.injEq, Prod.mk.injEq, true_and] at hacc
            exact hacc.symm
          subst hv
          exact ⟨by decide, ⟨_, rfl⟩, ⟨_, rfl⟩⟩
        · have hv : v = "latest" := by
            have h1 : acceptedStep (GetCollectionBaseDirPath "/h" ⟨"lib", "a1"⟩)
                "/h/a1/collection/steps/A/latest/step.yml" = some ("A", "latest") := by decide
            rw [h1] at hacc
            simp only [Option.some.injEq, Prod.mk.injEq, true_and] at hacc
            exact hacc.symm
          subst hv
          exact ⟨by decide, ⟨_, rfl⟩, ⟨_, rfl⟩⟩)
    exact ⟨err, hgen⟩

end Stepman
